import Mathlib

/-!
Shallow embedding of the dagger in-memory directed graph store
(package primitive): the namespace-partitioned concurrent map
(NamespacedSyncMap / SyncCache), the Graph composed of four such maps
(nodes, edges, edgesFrom, edgesTo), export/import snapshots, and the
spec-modelled collaborators (Edge validation, the adjacency edgeMap,
the AnyType wildcard and the identifier generator).

Go maps become association lists; sync.Map Store/Load/Delete become
keyed overwrite / first-match lookup / keyed filter on those lists;
methods returning through callbacks become functions returning the
list of visited entries.  Panics (nil dereference) are modelled as
Option results with none for the panic.
-/

namespace Dagger

/-- The (type, id) pair identifying a node or an edge within its type. -/
structure TypedID where
  typ : String
  id : String
deriving DecidableEq, Repr

/-- Modelled from the spec: the distinguished wildcard namespace value
meaning all namespaces (dagger.AnyType, not under src/). -/
def AnyType : String := "*"

/-- Modelled from the spec: a Node is an entity with a type and an id; the
opaque attribute payload is an external collaborator and out of scope
(the Node capability interface is not under src/). -/
structure Node where
  typ : String
  id : String
deriving DecidableEq, Repr

/-- Modelled from the spec: an Edge is a directed relation with its own
(type, id), a From TypedID and a To TypedID (the Edge type is not under
src/); payload out of scope. -/
structure Edge where
  typ : String
  id : String
  From : TypedID
  To : TypedID
deriving DecidableEq, Repr

/-- Modelled from the spec: the zero TypedID, standing for an empty
endpoint reference. -/
def TypedID.empty : TypedID := ⟨"", ""⟩

/-- Modelled from the spec: Edge.Validate (not under src/) fails exactly
when the edge type, the From endpoint or the To endpoint is empty. -/
def Edge.Validate (e : Edge) : Bool :=
  decide (e.typ ≠ "" ∧ e.From ≠ TypedID.empty ∧ e.To ≠ TypedID.empty)

/-- Modelled from the spec: the identifier generator (UUID, not under
src/); uniqueness is obtained by threading a counter through the graph. -/
def uuid (n : Nat) : String := String.mk (List.replicate (n + 1) 'u')

/-- One key-to-value level of a sync.Map, as an association list. -/
abbrev Table (V : Type) := List (String × V)

/-- sync.Map Load: first entry with the key, if any. -/
def Table.get {V : Type} (m : Table V) (k : String) : Option V :=
  match m with
  | [] => none
  | p :: rest => if p.1 = k then some p.2 else Table.get rest k

/-- sync.Map Store: overwrite in place at an existing key, else append. -/
def Table.set {V : Type} (m : Table V) (k : String) (v : V) : Table V :=
  match m with
  | [] => [(k, v)]
  | p :: rest => if p.1 = k then (k, v) :: rest else p :: Table.set rest k v

/-- sync.Map Delete: remove the entry with the key; no-op when absent. -/
def Table.del {V : Type} (m : Table V) (k : String) : Table V :=
  match m with
  | [] => []
  | p :: rest => if p.1 = k then Table.del rest k else p :: Table.del rest k

/-- The keys of a table. -/
def Table.keys {V : Type} (m : Table V) : List String := m.map (fun p => p.1)

/-- NamespacedSyncMap as used by the Graph (part_000/part_001), specialised
to string keys and a typed value per cache: namespace to sub-table. -/
abbrev NSC (V : Type) := Table (Table V)

/-- NamespacedSyncMap.Get: not-found when the namespace or key is absent. -/
def NSC.get {V : Type} (c : NSC V) (ns k : String) : Option V :=
  match Table.get c ns with
  | some t => Table.get t k
  | none => none

/-- NamespacedSyncMap.Set: create the sub-table on first write, then store
the key in it in place. -/
def NSC.set {V : Type} (c : NSC V) (ns k : String) (v : V) : NSC V :=
  match c with
  | [] => [(ns, Table.set [] k v)]
  | p :: rest =>
      if p.1 = ns then (p.1, Table.set p.2 k v) :: rest
      else p :: NSC.set rest ns k v

/-- NamespacedSyncMap.Delete: delete inside the namespace when it exists,
no-op otherwise. -/
def NSC.del {V : Type} (c : NSC V) (ns k : String) : NSC V :=
  match c with
  | [] => []
  | p :: rest =>
      if p.1 = ns then (p.1, Table.del p.2 k) :: rest
      else p :: NSC.del rest ns k

/-- NamespacedSyncMap.Namespaces: every namespace created by a write,
including ones whose entries were all deleted. -/
def NSC.namespacesL {V : Type} (c : NSC V) : List String :=
  c.map (fun p => p.1)

/-- The entries of one namespace (empty when absent). -/
def NSC.entriesL {V : Type} (c : NSC V) (ns : String) : List (String × V) :=
  (Table.get c ns).getD []

/-- All (namespace, key, value) triples stored in the cache. -/
def NSC.lookups {V : Type} (c : NSC V) : List (String × String × V) :=
  c.flatMap (fun p => p.2.map (fun q => (p.1, q.1, q.2)))

/-- All stored values, across namespaces, in iteration order. -/
def NSC.values {V : Type} (c : NSC V) : List V :=
  c.flatMap (fun p => p.2.map (fun q => q.2))

/-- Modelled from the spec: the Adjacency List (edgeMap, not under src/) of
one node, edges keyed by edge id grouped under the edge type; represented
flat with at most one entry per (type, id). -/
abbrev EdgeMap := List Edge

/-- Modelled from the spec: edgeMap.AddEdge inserts keyed by the edge id
under the edge type (overwriting a same-keyed entry). -/
def EdgeMap.addEdge (m : EdgeMap) (e : Edge) : EdgeMap :=
  e :: m.filter (fun x => decide (¬(x.typ = e.typ ∧ x.id = e.id)))

/-- Modelled from the spec: edgeMap.DelEdge removes by edge id regardless
of type grouping; no-op when absent. -/
def EdgeMap.delEdge (m : EdgeMap) (id : TypedID) : EdgeMap :=
  m.filter (fun x => decide (x.id ≠ id.id))

/-- Modelled from the spec: edgeMap.RangeType iterates edges of one type,
or of all types under the wildcard. -/
def EdgeMap.rangeTypeList (m : EdgeMap) (typ : String) : List Edge :=
  if typ = AnyType then m else m.filter (fun x => decide (x.typ = typ))

/-- The Graph (dag.go): four namespace caches plus the identifier
counter standing for the external UUID source. -/
structure Graph where
  nodes : NSC Node
  edges : NSC Edge
  edgesFrom : NSC EdgeMap
  edgesTo : NSC EdgeMap
  counter : Nat
deriving DecidableEq, Repr

/-- NewGraphCacheMap: the empty graph. -/
def emptyGraph : Graph := ⟨[], [], [], [], 0⟩

/-- Graph.AddNode: assign a fresh id when empty, then store under
(type, id). -/
def Graph.addNode (g : Graph) (n : Node) : Graph :=
  if n.id = "" then
    let n2 : Node := ⟨n.typ, uuid g.counter⟩
    { g with nodes := NSC.set g.nodes n2.typ n2.id n2, counter := g.counter + 1 }
  else
    { g with nodes := NSC.set g.nodes n.typ n.id n }

/-- Graph.GetNode. -/
def Graph.getNode (g : Graph) (id : TypedID) : Option Node :=
  NSC.get g.nodes id.typ id.id

/-- Graph.HasNode. -/
def Graph.hasNode (g : Graph) (id : TypedID) : Bool :=
  (g.getNode id).isSome

/-- Graph.GetEdge. -/
def Graph.getEdge (g : Graph) (id : TypedID) : Option Edge :=
  NSC.get g.edges id.typ id.id

/-- Graph.HasEdge. -/
def Graph.hasEdge (g : Graph) (id : TypedID) : Bool :=
  (g.getEdge id).isSome

/-- Error kinds of Graph.AddEdge (dag.go returns a validation error from
Edge.Validate or a node-does-not-exist error). -/
inductive GraphErr where
  | validation
  | notFound (t : TypedID)
deriving DecidableEq, Repr

/-- The id assignment at the top of Graph.AddEdge: an empty edge id is
replaced by a fresh generated one. -/
def Graph.assignEdgeId (g : Graph) (e : Edge) : Edge :=
  if e.id = "" then ⟨e.typ, uuid g.counter, e.From, e.To⟩ else e

/-- Graph.AddEdge: assign an id when empty; validate; check both endpoint
nodes exist; then store in edges and append to the From-side and To-side
adjacency lists. -/
def Graph.addEdge (g : Graph) (e0 : Edge) : Except GraphErr Graph :=
  let e := g.assignEdgeId e0
  if ¬ e.Validate then Except.error GraphErr.validation
  else if ¬ g.hasNode e.From then Except.error (GraphErr.notFound e.From)
  else if ¬ g.hasNode e.To then Except.error (GraphErr.notFound e.To)
  else
    let cnt := if e0.id = "" then g.counter + 1 else g.counter
    let g1 := { g with edges := NSC.set g.edges e.typ e.id e, counter := cnt }
    let fromM := (NSC.get g1.edgesFrom e.From.typ e.From.id).getD []
    let g2 := { g1 with
      edgesFrom := NSC.set g1.edgesFrom e.From.typ e.From.id (EdgeMap.addEdge fromM e) }
    let toM := (NSC.get g2.edgesTo e.To.typ e.To.id).getD []
    Except.ok { g2 with
      edgesTo := NSC.set g2.edgesTo e.To.typ e.To.id (EdgeMap.addEdge toM e) }

/-- Graph.DelEdge: look the edge up; when found remove its id from the
From-side and To-side adjacency lists; then delete it from edges. -/
def Graph.delEdge (g : Graph) (id : TypedID) : Graph :=
  let g1 :=
    match NSC.get g.edges id.typ id.id with
    | some edge =>
        let gA :=
          match NSC.get g.edgesFrom edge.From.typ edge.From.id with
          | some m =>
              { g with edgesFrom :=
                  NSC.set g.edgesFrom edge.From.typ edge.From.id (EdgeMap.delEdge m id) }
          | none => g
        match NSC.get gA.edgesTo edge.To.typ edge.To.id with
        | some m =>
            { gA with edgesTo :=
                NSC.set gA.edgesTo edge.To.typ edge.To.id (EdgeMap.delEdge m id) }
        | none => gA
    | none => g
  { g1 with edges := NSC.del g1.edges id.typ id.id }

/-- Graph.DelNode: cascade over the node's outbound adjacency list,
deleting each edge through DelEdge, then remove the node entry. -/
def Graph.delNode (g : Graph) (id : TypedID) : Graph :=
  let g1 :=
    match NSC.get g.edgesFrom id.typ id.id with
    | some m => m.foldl (fun (acc : Graph) (e : Edge) => Graph.delEdge acc ⟨e.typ, e.id⟩) g
    | none => g
  { g1 with nodes := NSC.del g1.nodes id.typ id.id }

/-- Graph.EdgesFrom: the node's outbound edges, optionally filtered to one
edge type (wildcard for any). -/
def Graph.edgesFromList (g : Graph) (edgeType : String) (id : TypedID) : List Edge :=
  match NSC.get g.edgesFrom id.typ id.id with
  | some m => m.rangeTypeList edgeType
  | none => []

/-- Graph.EdgesTo: the node's inbound edges, optionally filtered. -/
def Graph.edgesToList (g : Graph) (edgeType : String) (id : TypedID) : List Edge :=
  match NSC.get g.edgesTo id.typ id.id with
  | some m => m.rangeTypeList edgeType
  | none => []

/-- All stored nodes in iteration order (what RangeNodes visits with a
callback that never stops). -/
def Graph.nodesList (g : Graph) : List Node := NSC.values g.nodes

/-- All stored edges in iteration order (what RangeEdges visits with a
callback that never stops). -/
def Graph.edgesList (g : Graph) : List Edge := NSC.values g.edges

/-- One sync.Map Range call with an early-stopping callback: the visited
entries, stopping after (and including) the first entry on which the
callback answers false. -/
def visitStop {α : Type} (fn : α → Bool) : List α → List α
  | [] => []
  | x :: xs => if fn x then x :: visitStop fn xs else [x]

/-- Graph.RangeNodes: the nodes visited by the callback.  The outer loop
walks every namespace; the callback result only stops the inner Range of
the namespace being visited. -/
def Graph.rangeNodesVisits (g : Graph) (fn : Node → Bool) : List Node :=
  (NSC.namespacesL g.nodes).foldl
    (fun acc ns => acc ++ visitStop fn ((NSC.entriesL g.nodes ns).map (fun q => q.2))) []

/-- Graph.RangeEdges: the edges visited by the callback, same shape as
RangeNodes. -/
def Graph.rangeEdgesVisits (g : Graph) (fn : Edge → Bool) : List Edge :=
  (NSC.namespacesL g.edges).foldl
    (fun acc ns => acc ++ visitStop fn ((NSC.entriesL g.edges ns).map (fun q => q.2))) []

/-- The Export snapshot: an ordered list of nodes and one of edges. -/
structure Export where
  Nodes : List Node
  Edges : List Edge
deriving DecidableEq, Repr

/-- Graph.Export: flatten all nodes and all edges in iteration order. -/
def Graph.exportG (g : Graph) : Export :=
  ⟨g.nodesList, g.edgesList⟩

/-- Graph.Import: replay AddNode for every node then AddEdge for every
edge in snapshot order, discarding every AddEdge error, and return nil. -/
def Graph.importG (g : Graph) (exp : Export) : Except GraphErr Graph :=
  let g1 := exp.Nodes.foldl (fun acc n => acc.addNode n) g
  let g2 := exp.Edges.foldl
    (fun acc e => match acc.addEdge e with
      | Except.ok g2 => g2
      | Except.error _ => acc) g1
  Except.ok g2

/-- A structural mutation of the graph. -/
inductive Op where
  | addN (n : Node)
  | addE (e : Edge)
  | delN (id : TypedID)
  | delE (id : TypedID)
deriving DecidableEq, Repr

/-- One sequential API call; a failing AddEdge leaves the graph as it was. -/
def Graph.applyOp (g : Graph) : Op → Graph
  | Op.addN n => g.addNode n
  | Op.addE e =>
      match g.addEdge e with
      | Except.ok g2 => g2
      | Except.error _ => g
  | Op.delN id => g.delNode id
  | Op.delE id => g.delEdge id

/-- A finite sequence of API calls applied sequentially. -/
def Graph.run (g : Graph) (ops : List Op) : Graph :=
  ops.foldl Graph.applyOp g

/-- A namespace cache whose outer keys and per-namespace inner keys are
duplicate-free (always true of states built through the API). -/
def NSC.WellFormed {V : Type} (c : NSC V) : Prop :=
  (c.map (fun p => p.1)).Nodup ∧ ∀ p ∈ c, (p.2.map (fun q => q.1)).Nodup

/-- All four caches of the graph are duplicate-free. -/
def Graph.CachesWF (g : Graph) : Prop :=
  NSC.WellFormed g.nodes ∧ NSC.WellFormed g.edges ∧
  NSC.WellFormed g.edgesFrom ∧ NSC.WellFormed g.edgesTo

/-- Every stored edge sits under the namespace of its own type and the key
of its own id (AddEdge always stores this way). -/
def WellKeyedEdges (g : Graph) : Prop :=
  ∀ tr ∈ NSC.lookups g.edges, tr.2.2.typ = tr.1 ∧ tr.2.2.id = tr.2.1

/-- Distinct stored edges never share a bare edge id. -/
def UniqueIds (g : Graph) : Prop :=
  ∀ e1 ∈ g.edgesList, ∀ e2 ∈ g.edgesList, e1.id = e2.id → e1 = e2

/-- Membership of an edge in the From-side adjacency entry keyed (ns, k). -/
def MemF (g : Graph) (ns k : String) (e : Edge) : Prop :=
  e ∈ (NSC.get g.edgesFrom ns k).getD []

/-- Membership of an edge in the To-side adjacency entry keyed (ns, k). -/
def MemT (g : Graph) (ns k : String) (e : Edge) : Prop :=
  e ∈ (NSC.get g.edgesTo ns k).getD []

/-- The four-index consistency invariant: every stored edge appears in the
From-side adjacency entry keyed by its From endpoint and in no other
From-side entry, likewise on the To side; conversely every edge held in
any adjacency entry is present in the edges map under its own (type, id). -/
def Consistent (g : Graph) : Prop :=
  (∀ e ∈ g.edgesList,
      MemF g e.From.typ e.From.id e ∧ MemT g e.To.typ e.To.id e ∧
      (∀ tr ∈ NSC.lookups g.edgesFrom, e ∈ tr.2.2 →
        tr.1 = e.From.typ ∧ tr.2.1 = e.From.id) ∧
      (∀ tr ∈ NSC.lookups g.edgesTo, e ∈ tr.2.2 →
        tr.1 = e.To.typ ∧ tr.2.1 = e.To.id)) ∧
  (∀ tr ∈ NSC.lookups g.edgesFrom, ∀ e ∈ tr.2.2,
      NSC.get g.edges e.typ e.id = some e) ∧
  (∀ tr ∈ NSC.lookups g.edgesTo, ∀ e ∈ tr.2.2,
      NSC.get g.edges e.typ e.id = some e)

/-- Every stored edge's From endpoint is a stored node (DelNode cascades
through the From side, so From endpoints never dangle). -/
def FromClosed (g : Graph) : Prop :=
  ∀ e ∈ g.edgesList, g.hasNode e.From = true

/-- The bundled structural invariant of reachable graphs. -/
def Inv (g : Graph) : Prop :=
  Graph.CachesWF g ∧ WellKeyedEdges g ∧ UniqueIds g ∧ Consistent g

/-- Sequences whose AddEdge calls never reuse the bare id of a different
edge already stored at the moment of the call. -/
inductive SafeSeq : Graph → List Op → Prop where
  | nil (g : Graph) : SafeSeq g []
  | addN (g : Graph) (n : Node) (ops : List Op) :
      SafeSeq (g.applyOp (Op.addN n)) ops → SafeSeq g (Op.addN n :: ops)
  | addE (g : Graph) (e : Edge) (ops : List Op) :
      (∀ e2 ∈ g.edgesList, e2.id = (g.assignEdgeId e).id → e2 = g.assignEdgeId e) →
      SafeSeq (g.applyOp (Op.addE e)) ops → SafeSeq g (Op.addE e :: ops)
  | delN (g : Graph) (id : TypedID) (ops : List Op) :
      SafeSeq (g.applyOp (Op.delN id)) ops → SafeSeq g (Op.delN id :: ops)
  | delE (g : Graph) (id : TypedID) (ops : List Op) :
      SafeSeq (g.applyOp (Op.delE id)) ops → SafeSeq g (Op.delE id :: ops)

/-- Some node in the list carries the (type, id) pair. -/
def hasNodeKey (l : List Node) (t i : String) : Prop :=
  ∃ n ∈ l, n.typ = t ∧ n.id = i

/-- Some edge in the list carries the (type, id) pair. -/
def hasEdgeKey (l : List Edge) (t i : String) : Prop :=
  ∃ e ∈ l, e.typ = t ∧ e.id = i

/-- A graph state as produced by the API: nodes and edges stored under
their own (type, id) with nonempty ids, stored edges valid with both
endpoints present, and duplicate-free cache keys. -/
def WFGraph (g : Graph) : Prop :=
  Graph.CachesWF g ∧
  (∀ tr ∈ NSC.lookups g.nodes,
      tr.2.2.typ = tr.1 ∧ tr.2.2.id = tr.2.1 ∧ tr.2.2.id ≠ "") ∧
  (∀ tr ∈ NSC.lookups g.edges,
      tr.2.2.typ = tr.1 ∧ tr.2.2.id = tr.2.1 ∧ tr.2.2.id ≠ "" ∧
      tr.2.2.Validate = true ∧
      g.hasNode tr.2.2.From = true ∧ g.hasNode tr.2.2.To = true)

instance {V : Type} (c : NSC V) : Decidable (NSC.WellFormed c) := by
  unfold NSC.WellFormed; infer_instance

instance (g : Graph) : Decidable (Graph.CachesWF g) := by
  unfold Graph.CachesWF; infer_instance

instance (g : Graph) : Decidable (WellKeyedEdges g) := by
  unfold WellKeyedEdges; infer_instance

instance (g : Graph) : Decidable (UniqueIds g) := by
  unfold UniqueIds; infer_instance

instance (g : Graph) : Decidable (Consistent g) := by
  unfold Consistent MemF MemT; infer_instance

instance (g : Graph) : Decidable (FromClosed g) := by
  unfold FromClosed; infer_instance

instance (g : Graph) : Decidable (Inv g) := by
  unfold Inv; infer_instance

instance (l : List Node) (t i : String) : Decidable (hasNodeKey l t i) := by
  unfold hasNodeKey; infer_instance

instance (l : List Edge) (t i : String) : Decidable (hasEdgeKey l t i) := by
  unfold hasEdgeKey; infer_instance

instance (g : Graph) : Decidable (WFGraph g) := by
  unfold WFGraph; infer_instance

/-- SyncCache (part_001): one concurrent key-to-value map; keys and values
share one type because Intersection looks values of one cache up as keys
of the other (both are interface values in the source). -/
structure SyncCache (κ : Type) where
  data : List (κ × κ)
deriving DecidableEq, Repr

/-- SyncCache.Get: first entry with the key, if any. -/
def SyncCache.get {κ : Type} [DecidableEq κ] (c : SyncCache κ) (k : κ) : Option κ :=
  (c.data.find? (fun p => decide (p.1 = k))).map (fun p => p.2)

/-- SyncCache.Exists: whether Get finds the key. -/
def SyncCache.existsKey {κ : Type} [DecidableEq κ] (c : SyncCache κ) (k : κ) : Bool :=
  (c.get k).isSome

/-- SyncCache.Len: number of entries visited by Range. -/
def SyncCache.len {κ : Type} (c : SyncCache κ) : Nat := c.data.length

/-- SyncCache.Map: the entries snapshotted into a plain container. -/
def SyncCache.mapAll {κ : Type} (c : SyncCache κ) : List (κ × κ) := c.data

/-- SyncCache.Intersection with the source's nil-receiver and nil-argument
guards: the entries of the receiver whose value exists as a key of the
other cache. -/
def SyncCache.intersection {κ : Type} [DecidableEq κ]
    (c : Option (SyncCache κ)) (other : Option (SyncCache κ)) : List (κ × κ) :=
  match c with
  | none => []
  | some c1 =>
      match other with
      | none => []
      | some o => c1.data.filter (fun p => o.existsKey p.2)

/-- The key-wise set intersection of two caches, following the claim's
contrasting words: entries of the first whose KEY is also a key of the
second (not what the source computes). -/
def keywiseIntersection {κ : Type} [DecidableEq κ]
    (c o : SyncCache κ) : List (κ × κ) :=
  c.data.filter (fun p => o.existsKey p.1)

/-- NamespacedSyncMap (part_001) in its generic use: namespace string to
SyncCache. -/
structure NamespacedSyncMap (κ : Type) where
  cacheMap : Table (SyncCache κ)
deriving DecidableEq, Repr

/-- NamespacedSyncMap.Len: 0 when the namespace is absent. -/
def NamespacedSyncMap.lenNS {κ : Type} (n : NamespacedSyncMap κ) (ns : String) : Nat :=
  match Table.get n.cacheMap ns with
  | some c => c.len
  | none => 0

/-- NamespacedSyncMap.Get: not-found when the namespace is absent. -/
def NamespacedSyncMap.getNS {κ : Type} [DecidableEq κ]
    (n : NamespacedSyncMap κ) (ns : String) (k : κ) : Option κ :=
  match Table.get n.cacheMap ns with
  | some c => c.get k
  | none => none

/-- NamespacedSyncMap.Delete: delete inside the namespace when it exists,
no-op otherwise. -/
def NamespacedSyncMap.deleteNS {κ : Type} [DecidableEq κ]
    (n : NamespacedSyncMap κ) (ns : String) (k : κ) : NamespacedSyncMap κ :=
  { cacheMap :=
      n.cacheMap.map (fun p =>
        if p.1 = ns then (p.1, ⟨p.2.data.filter (fun q => decide (q.1 ≠ k))⟩) else p) }

/-- NamespacedSyncMap.Range: entries visited by a never-stopping callback;
the wildcard namespace ranges every namespace, an absent ordinary
namespace is skipped. -/
def NamespacedSyncMap.rangeListNS {κ : Type}
    (n : NamespacedSyncMap κ) (ns : String) : List (κ × κ) :=
  if ns = AnyType then n.cacheMap.flatMap (fun p => p.2.data)
  else
    match Table.get n.cacheMap ns with
    | some c => c.data
    | none => []

/-- NamespacedSyncMap.Range with an early-stopping callback: the entries
visited; the callback result only stops the Range of the sub-map being
visited, the wildcard loop still proceeds to the remaining namespaces. -/
def NamespacedSyncMap.rangeVisitsNS {κ : Type} (n : NamespacedSyncMap κ)
    (ns : String) (fn : κ × κ → Bool) : List (κ × κ) :=
  if ns = AnyType then
    n.cacheMap.foldl (fun acc p => acc ++ visitStop fn p.2.data) []
  else
    match Table.get n.cacheMap ns with
    | some c => visitStop fn c.data
    | none => []

/-- The property asserted by the spec for an early-stopped iteration: once
the callback answers false, nothing further is visited, so every visited
entry except possibly the last answered true. -/
def StopsEntirely {α : Type} (fn : α → Bool) (visits : List α) : Prop :=
  ∀ x ∈ visits.dropLast, fn x = true

instance {α : Type} (fn : α → Bool) (visits : List α) :
    Decidable (StopsEntirely fn visits) := by
  unfold StopsEntirely; infer_instance

/-- NamespacedSyncMap.Exists dereferences the looked-up sub-map without a
presence check: none models the nil-dereference panic on an absent
namespace. -/
def NamespacedSyncMap.existsNS {κ : Type} [DecidableEq κ]
    (n : NamespacedSyncMap κ) (ns : String) (k : κ) : Option Bool :=
  match Table.get n.cacheMap ns with
  | some c => some (c.existsKey k)
  | none => none

/-- NamespacedSyncMap.Map dereferences the looked-up sub-map without a
presence check: none models the nil-dereference panic on an absent
namespace. -/
def NamespacedSyncMap.mapNS {κ : Type}
    (n : NamespacedSyncMap κ) (ns : String) : Option (List (κ × κ)) :=
  match Table.get n.cacheMap ns with
  | some c => some c.mapAll
  | none => none

/-- NamespacedSyncMap.Intersection: delegate to SyncCache.Intersection on
the two looked-up sub-maps (nil receivers handled there). -/
def NamespacedSyncMap.intersectionNS {κ : Type} [DecidableEq κ]
    (n : NamespacedSyncMap κ) (ns1 ns2 : String) : List (κ × κ) :=
  SyncCache.intersection (Table.get n.cacheMap ns1) (Table.get n.cacheMap ns2)


/-! Helper lemmas about the association tables. -/

theorem Table.get_set_self {V : Type} (m : Table V) (k : String) (v : V) :
    Table.get (Table.set m k v) k = some v := by
  induction m with
  | nil => simp [Table.set, Table.get]
  | cons p rest ih =>
      by_cases hp : p.1 = k
      · simp [Table.set, hp, Table.get]
      · simp [Table.set, hp, Table.get, ih]

theorem Table.get_set_ne {V : Type} (m : Table V) (k k2 : String) (v : V)
    (h : k2 ≠ k) : Table.get (Table.set m k v) k2 = Table.get m k2 := by
  have h2 : k ≠ k2 := Ne.symm h
  induction m with
  | nil => simp [Table.set, Table.get, h2]
  | cons p rest ih =>
      by_cases hp : p.1 = k
      · have hpk2 : p.1 ≠ k2 := by rw [hp]; exact h2
        simp [Table.set, hp, Table.get, h2, hpk2]
      · by_cases hp2 : p.1 = k2 <;> simp [Table.set, hp, Table.get, hp2, ih, h]

theorem Table.get_del_self {V : Type} (m : Table V) (k : String) :
    Table.get (Table.del m k) k = none := by
  induction m with
  | nil => simp [Table.del, Table.get]
  | cons p rest ih =>
      by_cases hp : p.1 = k
      · simp [Table.del, hp, ih]
      · simp [Table.del, hp, Table.get, ih]

theorem Table.get_del_ne {V : Type} (m : Table V) (k k2 : String)
    (h : k2 ≠ k) : Table.get (Table.del m k) k2 = Table.get m k2 := by
  induction m with
  | nil => simp [Table.del]
  | cons p rest ih =>
      by_cases hp : p.1 = k
      · have hpk2 : p.1 ≠ k2 := by rw [hp]; exact Ne.symm h
        simp [Table.del, hp, Table.get, hpk2, ih, Ne.symm h]
      · by_cases hp2 : p.1 = k2 <;> simp [Table.del, hp, Table.get, hp2, ih, h]

theorem Table.get_none_iff {V : Type} (m : Table V) (k : String) :
    Table.get m k = none ↔ ∀ p ∈ m, p.1 ≠ k := by
  induction m with
  | nil => simp [Table.get]
  | cons p rest ih =>
      by_cases hp : p.1 = k <;> simp [Table.get, hp, ih]

theorem Table.del_eq_self_of_get_none {V : Type} (m : Table V) (k : String)
    (h : Table.get m k = none) : Table.del m k = m := by
  rw [Table.get_none_iff] at h
  induction m with
  | nil => rfl
  | cons p rest ih =>
      have hp : p.1 ≠ k := h p (by simp)
      have hrest := ih (fun q hq => h q (List.mem_cons_of_mem _ hq))
      simp [Table.del, hp, hrest]

theorem Table.mem_del {V : Type} (m : Table V) (k : String) (p : String × V) :
    p ∈ Table.del m k ↔ p ∈ m ∧ p.1 ≠ k := by
  induction m with
  | nil => simp [Table.del]
  | cons q rest ih =>
      by_cases hq : q.1 = k
      · rw [Table.del, if_pos hq, ih]
        constructor
        · exact fun ⟨h1, h2⟩ => ⟨List.mem_cons_of_mem _ h1, h2⟩
        · rintro ⟨h1, h2⟩
          rcases List.mem_cons.mp h1 with h3 | h3
          · exact absurd (h3 ▸ hq) h2
          · exact ⟨h3, h2⟩
      · rw [Table.del, if_neg hq]
        constructor
        · intro h1
          rcases List.mem_cons.mp h1 with h3 | h3
          · exact ⟨h3 ▸ List.mem_cons_self _ _, h3 ▸ hq⟩
          · have := ih.mp h3
            exact ⟨List.mem_cons_of_mem _ this.1, this.2⟩
        · rintro ⟨h1, h2⟩
          rcases List.mem_cons.mp h1 with h3 | h3
          · exact h3 ▸ List.mem_cons_self _ _
          · exact List.mem_cons_of_mem _ (ih.mpr ⟨h3, h2⟩)

theorem Table.get_mem {V : Type} (m : Table V) (k : String) (v : V)
    (h : Table.get m k = some v) : (k, v) ∈ m := by
  induction m with
  | nil => simp [Table.get] at h
  | cons p rest ih =>
      rw [Table.get] at h
      by_cases hp : p.1 = k
      · rw [if_pos hp] at h
        injection h with h2
        have : (k, v) = p := by
          obtain ⟨a, b⟩ := p
          simp only at hp h2
          rw [hp, h2]
        exact List.mem_cons.mpr (Or.inl this)
      · rw [if_neg hp] at h
        exact List.mem_cons_of_mem _ (ih h)

theorem Table.mem_get {V : Type} (m : Table V) (k : String) (v : V)
    (hnd : (m.map (fun p => p.1)).Nodup) (h : (k, v) ∈ m) :
    Table.get m k = some v := by
  induction m with
  | nil => simp at h
  | cons p rest ih =>
      simp only [List.map_cons, List.nodup_cons, List.mem_map] at hnd
      rcases List.mem_cons.mp h with h1 | h1
      · rw [← h1]
        simp [Table.get]
      · have hp : p.1 ≠ k := by
          intro hk
          exact hnd.1 ⟨(k, v), h1, hk.symm⟩
        simp [Table.get, hp, ih hnd.2 h1]

theorem Table.keys_set_none {V : Type} (m : Table V) (k : String) (v : V)
    (h : Table.get m k = none) :
    (Table.set m k v).map (fun p => p.1) = m.map (fun p => p.1) ++ [k] := by
  induction m with
  | nil => simp [Table.set]
  | cons p rest ih =>
      rw [Table.get] at h
      by_cases hp : p.1 = k
      · rw [if_pos hp] at h; exact absurd h (by simp)
      · rw [if_neg hp] at h
        simp [Table.set, hp, ih h]

theorem Table.keys_set_some {V : Type} (m : Table V) (k : String) (v : V)
    (h : Table.get m k ≠ none) :
    (Table.set m k v).map (fun p => p.1) = m.map (fun p => p.1) := by
  induction m with
  | nil => simp [Table.get] at h
  | cons p rest ih =>
      rw [Table.get] at h
      by_cases hp : p.1 = k
      · simp [Table.set, hp]
      · rw [if_neg hp] at h
        simp [Table.set, hp, ih h]

theorem Table.nodup_keys_set {V : Type} (m : Table V) (k : String) (v : V)
    (hnd : (m.map (fun p => p.1)).Nodup) :
    ((Table.set m k v).map (fun p => p.1)).Nodup := by
  by_cases hg : Table.get m k = none
  · rw [Table.keys_set_none m k v hg]
    rw [List.nodup_append]
    refine ⟨hnd, List.nodup_singleton _, ?_⟩
    intro a ha hb
    simp only [List.mem_singleton] at hb
    subst hb
    rcases List.mem_map.mp ha with ⟨p, hp, hpk⟩
    rw [Table.get_none_iff] at hg
    exact hg p hp hpk
  · rw [Table.keys_set_some m k v hg]
    exact hnd

theorem Table.mem_keys_del {V : Type} (m : Table V) (k : String) (a : String)
    (h : a ∈ (Table.del m k).map (fun p => p.1)) :
    a ∈ m.map (fun p => p.1) := by
  induction m with
  | nil => simp [Table.del] at h
  | cons p rest ih =>
      by_cases hp : p.1 = k
      · rw [Table.del, if_pos hp] at h
        exact List.mem_cons_of_mem _ (ih h)
      · rw [Table.del, if_neg hp] at h
        simp only [List.map_cons, List.mem_cons] at h ⊢
        rcases h with h | h
        · exact Or.inl h
        · exact Or.inr (ih h)

theorem Table.nodup_keys_del {V : Type} (m : Table V) (k : String)
    (hnd : (m.map (fun p => p.1)).Nodup) :
    ((Table.del m k).map (fun p => p.1)).Nodup := by
  induction m with
  | nil => simp [Table.del]
  | cons p rest ih =>
      simp only [List.map_cons, List.nodup_cons] at hnd
      by_cases hp : p.1 = k
      · rw [Table.del, if_pos hp]
        exact ih hnd.2
      · rw [Table.del, if_neg hp]
        simp only [List.map_cons, List.nodup_cons]
        exact ⟨fun hmem => hnd.1 (Table.mem_keys_del rest k p.1 hmem), ih hnd.2⟩

/-! Helper lemmas about the namespace caches. -/

theorem NSC.tableGet_set {V : Type} (c : NSC V) (ns k : String) (v : V)
    (ns2 : String) :
    Table.get (NSC.set c ns k v) ns2 =
      if ns2 = ns then some (Table.set ((Table.get c ns).getD []) k v)
      else Table.get c ns2 := by
  induction c with
  | nil =>
      by_cases hns : ns2 = ns
      · subst hns
        simp [NSC.set, Table.get]
      · have hns2 : ¬ ns = ns2 := fun h => hns h.symm
        rw [NSC.set, if_neg hns]
        simp [Table.get, hns2]
  | cons p rest ih =>
      by_cases hp : p.1 = ns
      · rw [NSC.set, if_pos hp]
        by_cases hns : ns2 = ns
        · subst hns
          have hp2 : p.1 = ns2 := hp
          rw [if_pos rfl]
          show (if p.1 = ns2 then some (Table.set p.2 k v) else Table.get rest ns2) = _
          rw [if_pos hp2]
          have : Table.get (p :: rest) ns2 = some p.2 := by
            rw [Table.get, if_pos hp2]
          rw [this]
          rfl
        · rw [if_neg hns]
          have hpns2 : ¬ p.1 = ns2 := fun h => hns (h.symm.trans hp)
          show (if p.1 = ns2 then some (Table.set p.2 k v) else Table.get rest ns2) = _
          rw [if_neg hpns2, Table.get, if_neg hpns2]
      · rw [NSC.set, if_neg hp]
        by_cases hpns2 : p.1 = ns2
        · have hns : ¬ ns2 = ns := fun h => hp (hpns2.trans h)
          rw [if_neg hns]
          show (if p.1 = ns2 then some p.2 else _) = Table.get (p :: rest) ns2
          rw [if_pos hpns2, Table.get, if_pos hpns2]
        · show Table.get ((p.1, p.2) :: NSC.set rest ns k v) ns2 = _
          rw [Table.get, if_neg hpns2, ih]
          have hcns : Table.get (p :: rest) ns = Table.get rest ns := by
            rw [Table.get, if_neg hp]
          have hcns2 : Table.get (p :: rest) ns2 = Table.get rest ns2 := by
            rw [Table.get, if_neg hpns2]
          rw [hcns, hcns2]

theorem NSC.tableGet_del {V : Type} (c : NSC V) (ns k : String) (ns2 : String) :
    Table.get (NSC.del c ns k) ns2 =
      if ns2 = ns then (Table.get c ns).map (fun t => Table.del t k)
      else Table.get c ns2 := by
  induction c with
  | nil =>
      by_cases hns : ns2 = ns
      · subst hns
        simp [NSC.del, Table.get]
      · rw [NSC.del, if_neg hns]
  | cons p rest ih =>
      by_cases hp : p.1 = ns
      · rw [NSC.del, if_pos hp]
        by_cases hns : ns2 = ns
        · subst hns
          have hp2 : p.1 = ns2 := hp
          rw [if_pos rfl]
          show (if p.1 = ns2 then some (Table.del p.2 k) else Table.get rest ns2) = _
          rw [if_pos hp2]
          have : Table.get (p :: rest) ns2 = some p.2 := by
            rw [Table.get, if_pos hp2]
          rw [this]
          rfl
        · rw [if_neg hns]
          have hpns2 : ¬ p.1 = ns2 := fun h => hns (h.symm.trans hp)
          show (if p.1 = ns2 then some (Table.del p.2 k) else Table.get rest ns2) = _
          rw [if_neg hpns2, Table.get, if_neg hpns2]
      · rw [NSC.del, if_neg hp]
        by_cases hpns2 : p.1 = ns2
        · have hns : ¬ ns2 = ns := fun h => hp (hpns2.trans h)
          rw [if_neg hns]
          show (if p.1 = ns2 then some p.2 else _) = Table.get (p :: rest) ns2
          rw [if_pos hpns2, Table.get, if_pos hpns2]
        · show Table.get ((p.1, p.2) :: NSC.del rest ns k) ns2 = _
          rw [Table.get, if_neg hpns2, ih]
          have hcns : Table.get (p :: rest) ns = Table.get rest ns := by
            rw [Table.get, if_neg hp]
          have hcns2 : Table.get (p :: rest) ns2 = Table.get rest ns2 := by
            rw [Table.get, if_neg hpns2]
          rw [hcns, hcns2]

theorem NSC.get_set_selfNS {V : Type} (c : NSC V) (ns k : String) (v : V) :
    NSC.get (NSC.set c ns k v) ns k = some v := by
  rw [NSC.get, NSC.tableGet_set, if_pos rfl]
  exact Table.get_set_self _ _ _

theorem NSC.get_set_neNS {V : Type} (c : NSC V) (ns k ns2 k2 : String) (v : V)
    (h : ¬(ns2 = ns ∧ k2 = k)) :
    NSC.get (NSC.set c ns k v) ns2 k2 = NSC.get c ns2 k2 := by
  rw [NSC.get, NSC.tableGet_set]
  by_cases hns : ns2 = ns
  · have hk : k2 ≠ k := fun hk => h ⟨hns, hk⟩
    rw [if_pos hns]
    show (Table.set ((Table.get c ns).getD []) k v).get k2 = NSC.get c ns2 k2
    rw [Table.get_set_ne _ _ _ _ hk, NSC.get, hns]
    cases Table.get c ns with
    | none => rfl
    | some t => rfl
  · rw [if_neg hns, NSC.get]

theorem NSC.get_del_selfNS {V : Type} (c : NSC V) (ns k : String) :
    NSC.get (NSC.del c ns k) ns k = none := by
  rw [NSC.get, NSC.tableGet_del, if_pos rfl]
  cases Table.get c ns with
  | none => rfl
  | some t => exact Table.get_del_self _ _

theorem NSC.get_del_neNS {V : Type} (c : NSC V) (ns k ns2 k2 : String)
    (h : ¬(ns2 = ns ∧ k2 = k)) :
    NSC.get (NSC.del c ns k) ns2 k2 = NSC.get c ns2 k2 := by
  rw [NSC.get, NSC.tableGet_del]
  by_cases hns : ns2 = ns
  · have hk : k2 ≠ k := fun hk => h ⟨hns, hk⟩
    rw [if_pos hns, NSC.get, hns]
    cases Table.get c ns with
    | none => rfl
    | some t => exact Table.get_del_ne _ _ _ hk
  · rw [if_neg hns, NSC.get]

theorem NSC.del_eq_self_of_get_noneNS {V : Type} (c : NSC V) (ns k : String)
    (h : NSC.get c ns k = none) : NSC.del c ns k = c := by
  induction c with
  | nil => rfl
  | cons p rest ih =>
      by_cases hp : p.1 = ns
      · have hin : Table.get p.2 k = none := by
          rw [NSC.get, Table.get, if_pos hp] at h
          exact h
        rw [NSC.del, if_pos hp, Table.del_eq_self_of_get_none _ _ hin]
      · have hrest : NSC.get rest ns k = none := by
          rw [NSC.get, Table.get, if_neg hp] at h
          exact h
        rw [NSC.del, if_neg hp, ih hrest]

theorem NSC.get_mem_lookups {V : Type} (c : NSC V) (ns k : String) (v : V)
    (h : NSC.get c ns k = some v) : (ns, k, v) ∈ NSC.lookups c := by
  rw [NSC.get] at h
  rcases hg : Table.get c ns with _ | t
  · rw [hg] at h; exact absurd h (by simp)
  · rw [hg] at h
    have hct : (ns, t) ∈ c := Table.get_mem c ns t hg
    have hkt : (k, v) ∈ t := Table.get_mem t k v h
    rw [NSC.lookups, List.mem_flatMap]
    exact ⟨(ns, t), hct, List.mem_map.mpr ⟨(k, v), hkt, rfl⟩⟩

theorem NSC.mem_lookups_get {V : Type} (c : NSC V) (ns k : String) (v : V)
    (hwf : NSC.WellFormed c) (h : (ns, k, v) ∈ NSC.lookups c) :
    NSC.get c ns k = some v := by
  rw [NSC.lookups, List.mem_flatMap] at h
  rcases h with ⟨p, hp, hq⟩
  rcases List.mem_map.mp hq with ⟨q, hqm, hqe⟩
  injection hqe with h1 h2
  injection h2 with h2a h2b
  have hpc : (ns, p.2) ∈ c := by
    have hpe : p = (ns, p.2) := by
      obtain ⟨a, b⟩ := p
      simp only at h1
      rw [h1]
    exact hpe ▸ hp
  have houter : Table.get c ns = some p.2 :=
    Table.mem_get c ns p.2 hwf.1 hpc
  have hinner : Table.get p.2 k = some v := by
    have hq2 : (k, v) ∈ p.2 := by
      have hqe2 : q = (k, v) := by
        obtain ⟨a, b⟩ := q
        simp only at h2a h2b
        rw [h2a, h2b]
      exact hqe2 ▸ hqm
    exact Table.mem_get p.2 k v (hwf.2 p hp) hq2
  rw [NSC.get, houter]
  exact hinner

theorem NSC.mem_namespaces_set {V : Type} (c : NSC V) (ns k : String) (v : V)
    (a : String) (h : a ∈ NSC.namespacesL (NSC.set c ns k v)) :
    a ∈ NSC.namespacesL c ∨ a = ns := by
  induction c with
  | nil =>
      rw [NSC.set] at h
      simp only [NSC.namespacesL, List.map_cons, List.map_nil,
        List.mem_singleton] at h
      exact Or.inr h
  | cons p rest ih =>
      by_cases hp : p.1 = ns
      · rw [NSC.set, if_pos hp] at h
        simp only [NSC.namespacesL, List.map_cons, List.mem_cons] at h ⊢
        rcases h with h | h
        · exact Or.inl (Or.inl h)
        · exact Or.inl (Or.inr h)
      · rw [NSC.set, if_neg hp] at h
        simp only [NSC.namespacesL, List.map_cons, List.mem_cons] at h ⊢
        rcases h with h | h
        · exact Or.inl (Or.inl h)
        · rcases ih h with h2 | h2
          · exact Or.inl (Or.inr h2)
          · exact Or.inr h2

theorem NSC.namespaces_del {V : Type} (c : NSC V) (ns k : String) :
    NSC.namespacesL (NSC.del c ns k) = NSC.namespacesL c := by
  induction c with
  | nil => rfl
  | cons p rest ih =>
      by_cases hp : p.1 = ns
      · rw [NSC.del, if_pos hp]
        simp only [NSC.namespacesL, List.map_cons]
      · rw [NSC.del, if_neg hp]
        simp only [NSC.namespacesL, List.map_cons] at ih ⊢
        rw [ih]

theorem NSC.wf_set {V : Type} (c : NSC V) (ns k : String) (v : V)
    (h : NSC.WellFormed c) : NSC.WellFormed (NSC.set c ns k v) := by
  induction c with
  | nil =>
      constructor
      · simp [NSC.set]
      · intro p hp
        rw [NSC.set] at hp
        simp only [List.mem_singleton] at hp
        subst hp
        simp [Table.set]
  | cons p rest ih =>
      obtain ⟨hout, hin⟩ := h
      simp only [List.map_cons, List.nodup_cons] at hout
      by_cases hp : p.1 = ns
      · rw [NSC.set, if_pos hp]
        constructor
        · simp only [List.map_cons, List.nodup_cons]
          exact hout
        · intro q hq
          rcases List.mem_cons.mp hq with h1 | h1
          · subst h1
            exact Table.nodup_keys_set _ _ _ (hin p (List.mem_cons_self _ _))
          · exact hin q (List.mem_cons_of_mem _ h1)
      · rw [NSC.set, if_neg hp]
        have hrest : NSC.WellFormed rest :=
          ⟨hout.2, fun q hq => hin q (List.mem_cons_of_mem _ hq)⟩
        have hih := ih hrest
        constructor
        · simp only [List.map_cons, List.nodup_cons]
          refine ⟨?_, hih.1⟩
          intro hmem
          rcases NSC.mem_namespaces_set rest ns k v p.1 hmem with h1 | h1
          · exact hout.1 h1
          · exact hp h1
        · intro q hq
          rcases List.mem_cons.mp hq with h1 | h1
          · exact h1 ▸ hin p (List.mem_cons_self _ _)
          · exact hih.2 q h1

theorem NSC.wf_del {V : Type} (c : NSC V) (ns k : String)
    (h : NSC.WellFormed c) : NSC.WellFormed (NSC.del c ns k) := by
  induction c with
  | nil => exact h
  | cons p rest ih =>
      obtain ⟨hout, hin⟩ := h
      simp only [List.map_cons, List.nodup_cons] at hout
      by_cases hp : p.1 = ns
      · rw [NSC.del, if_pos hp]
        constructor
        · simp only [List.map_cons, List.nodup_cons]
          exact hout
        · intro q hq
          rcases List.mem_cons.mp hq with h1 | h1
          · subst h1
            exact Table.nodup_keys_del _ _ (hin p (List.mem_cons_self _ _))
          · exact hin q (List.mem_cons_of_mem _ h1)
      · rw [NSC.del, if_neg hp]
        have hrest : NSC.WellFormed rest :=
          ⟨hout.2, fun q hq => hin q (List.mem_cons_of_mem _ hq)⟩
        have hih := ih hrest
        constructor
        · simp only [List.map_cons, List.nodup_cons]
          refine ⟨?_, hih.1⟩
          intro hmem
          have h2 : p.1 ∈ NSC.namespacesL rest := by
            rw [← NSC.namespaces_del rest ns k]
            exact hmem
          exact hout.1 h2
        · intro q hq
          rcases List.mem_cons.mp hq with h1 | h1
          · exact h1 ▸ hin p (List.mem_cons_self _ _)
          · exact hih.2 q h1

theorem NSC.mem_values_iff {V : Type} (c : NSC V) (v : V) :
    v ∈ NSC.values c ↔ ∃ ns k, (ns, k, v) ∈ NSC.lookups c := by
  simp only [NSC.values, NSC.lookups, List.mem_flatMap, List.mem_map]
  constructor
  · rintro ⟨p, hp, q, hq, rfl⟩
    exact ⟨p.1, q.1, p, hp, q, hq, rfl⟩
  · rintro ⟨ns, k, p, hp, q, hq, he⟩
    injection he with h1 h2
    injection h2 with h2a h2b
    exact ⟨p, hp, q, hq, h2b⟩

theorem NSC.mem_lookups_set {V : Type} (c : NSC V) (ns k : String) (v : V)
    (tr : String × String × V) (hwf : NSC.WellFormed c) :
    tr ∈ NSC.lookups (NSC.set c ns k v) ↔
      (tr ∈ NSC.lookups c ∧ ¬(tr.1 = ns ∧ tr.2.1 = k)) ∨ tr = (ns, k, v) := by
  obtain ⟨a, b, w⟩ := tr
  have hwf2 := NSC.wf_set c ns k v hwf
  constructor
  · intro h
    have hget := NSC.mem_lookups_get _ a b w hwf2 h
    by_cases hab : a = ns ∧ b = k
    · rw [hab.1, hab.2, NSC.get_set_selfNS] at hget
      injection hget with hv
      exact Or.inr (by rw [hab.1, hab.2, hv])
    · rw [NSC.get_set_neNS c ns k a b v hab] at hget
      exact Or.inl ⟨NSC.get_mem_lookups c a b w hget, by simpa using hab⟩
  · intro h
    rcases h with ⟨h1, h2⟩ | h1
    · have hget := NSC.mem_lookups_get c a b w hwf h1
      have hget2 : NSC.get (NSC.set c ns k v) a b = some w := by
        rw [NSC.get_set_neNS c ns k a b v (by simpa using h2)]
        exact hget
      exact NSC.get_mem_lookups _ a b w hget2
    · injection h1 with e1 e2
      injection e2 with e2a e2b
      subst e1; subst e2a; subst e2b
      exact NSC.get_mem_lookups _ a b w (NSC.get_set_selfNS c a b w)

theorem NSC.mem_lookups_del {V : Type} (c : NSC V) (ns k : String)
    (tr : String × String × V) (hwf : NSC.WellFormed c) :
    tr ∈ NSC.lookups (NSC.del c ns k) ↔
      tr ∈ NSC.lookups c ∧ ¬(tr.1 = ns ∧ tr.2.1 = k) := by
  obtain ⟨a, b, w⟩ := tr
  have hwf2 := NSC.wf_del c ns k hwf
  constructor
  · intro h
    have hget := NSC.mem_lookups_get _ a b w hwf2 h
    by_cases hab : a = ns ∧ b = k
    · rw [hab.1, hab.2, NSC.get_del_selfNS] at hget
      exact absurd hget (by simp)
    · rw [NSC.get_del_neNS c ns k a b hab] at hget
      exact ⟨NSC.get_mem_lookups c a b w hget, by simpa using hab⟩
  · rintro ⟨h1, h2⟩
    have hget := NSC.mem_lookups_get c a b w hwf h1
    have hget2 : NSC.get (NSC.del c ns k) a b = some w := by
      rw [NSC.get_del_neNS c ns k a b (by simpa using h2)]
      exact hget
    exact NSC.get_mem_lookups _ a b w hget2

/-! Helper lemmas about the graph operations. -/

theorem Graph.mem_edgesList_iff (g : Graph) (hwf : NSC.WellFormed g.edges)
    (hwk : WellKeyedEdges g) (x : Edge) :
    x ∈ g.edgesList ↔ NSC.get g.edges x.typ x.id = some x := by
  constructor
  · intro h
    rcases (NSC.mem_values_iff g.edges x).mp h with ⟨ns, k, hmem⟩
    obtain ⟨h1, h2⟩ := hwk (ns, k, x) hmem
    simp only at h1 h2
    rw [h1, h2]
    exact NSC.mem_lookups_get g.edges ns k x hwf hmem
  · intro h
    exact (NSC.mem_values_iff g.edges x).mpr
      ⟨x.typ, x.id, NSC.get_mem_lookups _ _ _ _ h⟩

theorem Graph.memF_of_lookups (g : Graph) (hwf : NSC.WellFormed g.edgesFrom)
    (tr : String × String × EdgeMap) (htr : tr ∈ NSC.lookups g.edgesFrom)
    (x : Edge) (hx : x ∈ tr.2.2) : MemF g tr.1 tr.2.1 x := by
  have hget : NSC.get g.edgesFrom tr.1 tr.2.1 = some tr.2.2 := by
    have : (tr.1, tr.2.1, tr.2.2) ∈ NSC.lookups g.edgesFrom := htr
    exact NSC.mem_lookups_get _ _ _ _ hwf this
  rw [MemF, hget]
  exact hx

theorem Graph.memT_of_lookups (g : Graph) (hwf : NSC.WellFormed g.edgesTo)
    (tr : String × String × EdgeMap) (htr : tr ∈ NSC.lookups g.edgesTo)
    (x : Edge) (hx : x ∈ tr.2.2) : MemT g tr.1 tr.2.1 x := by
  have hget : NSC.get g.edgesTo tr.1 tr.2.1 = some tr.2.2 := by
    have : (tr.1, tr.2.1, tr.2.2) ∈ NSC.lookups g.edgesTo := htr
    exact NSC.mem_lookups_get _ _ _ _ hwf this
  rw [MemT, hget]
  exact hx

theorem Graph.memF_lookups (g : Graph) (ns k : String) (x : Edge)
    (h : MemF g ns k x) :
    ∃ m, NSC.get g.edgesFrom ns k = some m ∧ x ∈ m := by
  rw [MemF] at h
  rcases hg : NSC.get g.edgesFrom ns k with _ | m
  · rw [hg] at h
    exact absurd h (by simp)
  · rw [hg] at h
    exact ⟨m, rfl, h⟩

theorem Graph.memT_lookups (g : Graph) (ns k : String) (x : Edge)
    (h : MemT g ns k x) :
    ∃ m, NSC.get g.edgesTo ns k = some m ∧ x ∈ m := by
  rw [MemT] at h
  rcases hg : NSC.get g.edgesTo ns k with _ | m
  · rw [hg] at h
    exact absurd h (by simp)
  · rw [hg] at h
    exact ⟨m, rfl, h⟩

theorem Graph.addNode_untouched (g : Graph) (n : Node) :
    (g.addNode n).edges = g.edges ∧ (g.addNode n).edgesFrom = g.edgesFrom ∧
    (g.addNode n).edgesTo = g.edgesTo := by
  by_cases h : n.id = "" <;> simp [Graph.addNode, h]

theorem Graph.addNode_nodes_set (g : Graph) (n : Node) :
    ∃ ns k v, (g.addNode n).nodes = NSC.set g.nodes ns k v := by
  by_cases h : n.id = ""
  · exact ⟨n.typ, uuid g.counter, ⟨n.typ, uuid g.counter⟩, by simp [Graph.addNode, h]⟩
  · exact ⟨n.typ, n.id, n, by simp [Graph.addNode, h]⟩

theorem Graph.delEdge_of_get_none (g : Graph) (t : TypedID)
    (h : NSC.get g.edges t.typ t.id = none) : g.delEdge t = g := by
  rw [Graph.delEdge]
  simp only [h]
  rw [NSC.del_eq_self_of_get_noneNS _ _ _ h]

theorem EdgeMap.mem_addEdge (m : EdgeMap) (e x : Edge) :
    x ∈ EdgeMap.addEdge m e ↔
      x = e ∨ (x ∈ m ∧ ¬(x.typ = e.typ ∧ x.id = e.id)) := by
  simp [EdgeMap.addEdge, List.mem_filter]
  tauto

theorem EdgeMap.mem_delEdge (m : EdgeMap) (t : TypedID) (x : Edge) :
    x ∈ EdgeMap.delEdge m t ↔ x ∈ m ∧ x.id ≠ t.id := by
  simp [EdgeMap.delEdge, List.mem_filter]

theorem EdgeMap.mem_rangeTypeList (m : EdgeMap) (typ : String) (x : Edge) :
    x ∈ EdgeMap.rangeTypeList m typ ↔
      x ∈ m ∧ (typ = AnyType ∨ x.typ = typ) := by
  by_cases h : typ = AnyType <;> simp [EdgeMap.rangeTypeList, h, List.mem_filter]

theorem Graph.assignEdgeId_fields (g : Graph) (e : Edge) :
    (g.assignEdgeId e).typ = e.typ ∧ (g.assignEdgeId e).From = e.From ∧
    (g.assignEdgeId e).To = e.To := by
  by_cases h : e.id = "" <;> simp [Graph.assignEdgeId, h]

theorem Graph.assignEdgeId_Validate (g : Graph) (e : Edge) :
    (g.assignEdgeId e).Validate = e.Validate := by
  by_cases h : e.id = "" <;> simp [Graph.assignEdgeId, h, Edge.Validate]

theorem Edge.Validate_eq_false_iff (e : Edge) :
    e.Validate = false ↔
      (e.typ = "" ∨ e.From = TypedID.empty ∨ e.To = TypedID.empty) := by
  simp [Edge.Validate]
  tauto

theorem Graph.addEdge_ok_iff (g : Graph) (e0 : Edge) :
    (∃ g2, g.addEdge e0 = Except.ok g2) ↔
      ((g.assignEdgeId e0).Validate = true ∧
       g.hasNode (g.assignEdgeId e0).From = true ∧
       g.hasNode (g.assignEdgeId e0).To = true) := by
  rw [Graph.addEdge]
  by_cases h1 : (g.assignEdgeId e0).Validate = true <;>
    by_cases h2 : g.hasNode (g.assignEdgeId e0).From = true <;>
      by_cases h3 : g.hasNode (g.assignEdgeId e0).To = true <;>
        simp [h1, h2, h3]

theorem Graph.addEdge_error_validation_iff (g : Graph) (e0 : Edge) :
    g.addEdge e0 = Except.error GraphErr.validation ↔
      (g.assignEdgeId e0).Validate = false := by
  rw [Graph.addEdge]
  by_cases h1 : (g.assignEdgeId e0).Validate = true <;>
    by_cases h2 : g.hasNode (g.assignEdgeId e0).From = true <;>
      by_cases h3 : g.hasNode (g.assignEdgeId e0).To = true <;>
        simp [h1, h2, h3]

theorem Graph.addEdge_error_notFound_iff (g : Graph) (e0 : Edge) :
    (∃ t, g.addEdge e0 = Except.error (GraphErr.notFound t)) ↔
      ((g.assignEdgeId e0).Validate = true ∧
       (g.hasNode (g.assignEdgeId e0).From = false ∨
        g.hasNode (g.assignEdgeId e0).To = false)) := by
  rw [Graph.addEdge]
  by_cases h1 : (g.assignEdgeId e0).Validate = true <;>
    by_cases h2 : g.hasNode (g.assignEdgeId e0).From = true <;>
      by_cases h3 : g.hasNode (g.assignEdgeId e0).To = true <;>
        simp [h1, h2, h3]

theorem Graph.addEdge_components (g : Graph) (e0 : Edge) (g2 : Graph)
    (h : g.addEdge e0 = Except.ok g2) :
    g2.nodes = g.nodes ∧
    g2.edges = NSC.set g.edges (g.assignEdgeId e0).typ (g.assignEdgeId e0).id
      (g.assignEdgeId e0) ∧
    g2.edgesFrom = NSC.set g.edgesFrom (g.assignEdgeId e0).From.typ
      (g.assignEdgeId e0).From.id
      (EdgeMap.addEdge
        ((NSC.get g.edgesFrom (g.assignEdgeId e0).From.typ
           (g.assignEdgeId e0).From.id).getD []) (g.assignEdgeId e0)) ∧
    g2.edgesTo = NSC.set g.edgesTo (g.assignEdgeId e0).To.typ
      (g.assignEdgeId e0).To.id
      (EdgeMap.addEdge
        ((NSC.get g.edgesTo (g.assignEdgeId e0).To.typ
           (g.assignEdgeId e0).To.id).getD []) (g.assignEdgeId e0)) := by
  rw [Graph.addEdge] at h
  by_cases h1 : (g.assignEdgeId e0).Validate = true
  · by_cases h2 : g.hasNode (g.assignEdgeId e0).From = true
    · by_cases h3 : g.hasNode (g.assignEdgeId e0).To = true
      · rw [if_neg (by simp [h1]), if_neg (by simp [h2]),
          if_neg (by simp [h3])] at h
        injection h with h4
        subst h4
        exact ⟨rfl, rfl, rfl, rfl⟩
      · rw [if_neg (by simp [h1]), if_neg (by simp [h2]),
          if_pos (by simp [h3])] at h
        exact absurd h (by simp)
    · rw [if_neg (by simp [h1]), if_pos (by simp [h2])] at h
      exact absurd h (by simp)
  · rw [if_pos (by simp [h1])] at h
    exact absurd h (by simp)

theorem Graph.delEdge_components_some (g : Graph) (t : TypedID) (ed : Edge)
    (h : NSC.get g.edges t.typ t.id = some ed) :
    (g.delEdge t).nodes = g.nodes ∧
    (g.delEdge t).counter = g.counter ∧
    (g.delEdge t).edges = NSC.del g.edges t.typ t.id ∧
    (g.delEdge t).edgesFrom =
      (match NSC.get g.edgesFrom ed.From.typ ed.From.id with
        | some m => NSC.set g.edgesFrom ed.From.typ ed.From.id (EdgeMap.delEdge m t)
        | none => g.edgesFrom) ∧
    (g.delEdge t).edgesTo =
      (match NSC.get g.edgesTo ed.To.typ ed.To.id with
        | some m => NSC.set g.edgesTo ed.To.typ ed.To.id (EdgeMap.delEdge m t)
        | none => g.edgesTo) := by
  rw [Graph.delEdge]
  simp only [h]
  rcases hF : NSC.get g.edgesFrom ed.From.typ ed.From.id with _ | mF <;>
    rcases hT : NSC.get g.edgesTo ed.To.typ ed.To.id with _ | mT <;>
      simp [hF, hT]

theorem Graph.consistent_convF (g : Graph) (hc : Consistent g)
    (ns k : String) (x : Edge) (h : MemF g ns k x) :
    NSC.get g.edges x.typ x.id = some x := by
  rcases Graph.memF_lookups g ns k x h with ⟨m, hm, hx⟩
  exact hc.2.1 (ns, k, m) (NSC.get_mem_lookups _ _ _ _ hm) x hx

theorem Graph.consistent_convT (g : Graph) (hc : Consistent g)
    (ns k : String) (x : Edge) (h : MemT g ns k x) :
    NSC.get g.edges x.typ x.id = some x := by
  rcases Graph.memT_lookups g ns k x h with ⟨m, hm, hx⟩
  exact hc.2.2 (ns, k, m) (NSC.get_mem_lookups _ _ _ _ hm) x hx

theorem Graph.memF_key (g : Graph) (hInv : Inv g) (ns k : String) (x : Edge)
    (h : MemF g ns k x) : ns = x.From.typ ∧ k = x.From.id := by
  have hget := Graph.consistent_convF g hInv.2.2.2 ns k x h
  have hxl : x ∈ g.edgesList :=
    (Graph.mem_edgesList_iff g hInv.1.2.1 hInv.2.1 x).mpr hget
  rcases Graph.memF_lookups g ns k x h with ⟨m, hm, hxm⟩
  exact (hInv.2.2.2.1 x hxl).2.2.1 (ns, k, m)
    (NSC.get_mem_lookups _ _ _ _ hm) hxm

theorem Graph.memT_key (g : Graph) (hInv : Inv g) (ns k : String) (x : Edge)
    (h : MemT g ns k x) : ns = x.To.typ ∧ k = x.To.id := by
  have hget := Graph.consistent_convT g hInv.2.2.2 ns k x h
  have hxl : x ∈ g.edgesList :=
    (Graph.mem_edgesList_iff g hInv.1.2.1 hInv.2.1 x).mpr hget
  rcases Graph.memT_lookups g ns k x h with ⟨m, hm, hxm⟩
  exact (hInv.2.2.2.1 x hxl).2.2.2 (ns, k, m)
    (NSC.get_mem_lookups _ _ _ _ hm) hxm

theorem Graph.delEdge_main (g : Graph) (t : TypedID) (hInv : Inv g) :
    Inv (g.delEdge t) ∧
    (g.delEdge t).nodes = g.nodes ∧
    (∀ x : Edge, x ∈ (g.delEdge t).edgesList ↔
        x ∈ g.edgesList ∧ ¬(x.typ = t.typ ∧ x.id = t.id)) ∧
    (∀ ns k : String, ∀ x : Edge, MemF (g.delEdge t) ns k x ↔
        MemF g ns k x ∧ ¬(x.typ = t.typ ∧ x.id = t.id)) ∧
    (∀ ns k : String, ∀ x : Edge, MemT (g.delEdge t) ns k x ↔
        MemT g ns k x ∧ ¬(x.typ = t.typ ∧ x.id = t.id)) := by
  obtain ⟨⟨wfN, wfE, wfF, wfT⟩, wk, uq, hcons⟩ := hInv
  have hInv2 : Inv g := ⟨⟨wfN, wfE, wfF, wfT⟩, wk, uq, hcons⟩
  rcases hg : NSC.get g.edges t.typ t.id with _ | ed
  · -- the edge is absent: DelEdge leaves the graph unchanged
    rw [Graph.delEdge_of_get_none g t hg]
    have hnotkey : ∀ x : Edge, x ∈ g.edgesList →
        ¬(x.typ = t.typ ∧ x.id = t.id) := by
      intro x hx hxk
      have := (Graph.mem_edgesList_iff g wfE wk x).mp hx
      rw [hxk.1, hxk.2, hg] at this
      exact absurd this (by simp)
    have hnotkeyF : ∀ ns k : String, ∀ x : Edge, MemF g ns k x →
        ¬(x.typ = t.typ ∧ x.id = t.id) := by
      intro ns k x hm
      have hget := Graph.consistent_convF g hcons ns k x hm
      exact hnotkey x ((Graph.mem_edgesList_iff g wfE wk x).mpr hget)
    have hnotkeyT : ∀ ns k : String, ∀ x : Edge, MemT g ns k x →
        ¬(x.typ = t.typ ∧ x.id = t.id) := by
      intro ns k x hm
      have hget := Graph.consistent_convT g hcons ns k x hm
      exact hnotkey x ((Graph.mem_edgesList_iff g wfE wk x).mpr hget)
    refine ⟨hInv2, rfl, ?_, ?_, ?_⟩
    · exact fun x => ⟨fun h => ⟨h, hnotkey x h⟩, fun h => h.1⟩
    · exact fun ns k x => ⟨fun h => ⟨h, hnotkeyF ns k x h⟩, fun h => h.1⟩
    · exact fun ns k x => ⟨fun h => ⟨h, hnotkeyT ns k x h⟩, fun h => h.1⟩
  · -- the edge is present
    have hedkeys : ed.typ = t.typ ∧ ed.id = t.id := by
      have := wk (t.typ, t.id, ed) (NSC.get_mem_lookups _ _ _ _ hg)
      exact ⟨this.1, this.2⟩
    have hedl : ed ∈ g.edgesList := by
      refine (Graph.mem_edgesList_iff g wfE wk ed).mpr ?_
      rw [hedkeys.1, hedkeys.2]
      exact hg
    have hedF : MemF g ed.From.typ ed.From.id ed := (hcons.1 ed hedl).1
    have hedT : MemT g ed.To.typ ed.To.id ed := (hcons.1 ed hedl).2.1
    rcases Graph.memF_lookups g _ _ ed hedF with ⟨mF, hmF, hedmF⟩
    rcases Graph.memT_lookups g _ _ ed hedT with ⟨mT, hmT, hedmT⟩
    obtain ⟨hN, hC, hE, hFr, hTo⟩ := Graph.delEdge_components_some g t ed hg
    rw [hmF] at hFr
    rw [hmT] at hTo
    -- identify colliding keys with the deleted edge
    have hS1 : ∀ x : Edge, x ∈ g.edgesList → x.id = t.id → x = ed := by
      intro x hx hid
      exact uq x hx ed hedl (by rw [hid, hedkeys.2])
    have hS2 : ∀ x : Edge, x ∈ g.edgesList →
        ((x.typ = t.typ ∧ x.id = t.id) ↔ x.id = t.id) := by
      intro x hx
      constructor
      · exact fun h => h.2
      · intro h
        have := hS1 x hx h
        subst this
        exact ⟨hedkeys.1, hedkeys.2⟩
    -- membership in the new edges map
    have hmemE : ∀ x : Edge, x ∈ (g.delEdge t).edgesList ↔
        x ∈ g.edgesList ∧ ¬(x.typ = t.typ ∧ x.id = t.id) := by
      intro x
      have hwk2 : WellKeyedEdges (g.delEdge t) := by
        intro tr htr
        rw [Graph.edgesList] at *
        rw [hE] at htr
        exact wk tr ((NSC.mem_lookups_del _ _ _ _ wfE).mp htr).1
      have hwfE2 : NSC.WellFormed (g.delEdge t).edges := by
        rw [hE]; exact NSC.wf_del _ _ _ wfE
      rw [Graph.mem_edgesList_iff _ hwfE2 hwk2 x, hE]
      by_cases hxk : x.typ = t.typ ∧ x.id = t.id
      · rw [hxk.1, hxk.2, NSC.get_del_selfNS]
        simp [hxk]
      · rw [NSC.get_del_neNS _ _ _ _ _ hxk]
        rw [← Graph.mem_edgesList_iff g wfE wk x]
        simp [hxk]
    -- membership in the new From-side adjacency
    have hmemF : ∀ ns k : String, ∀ x : Edge, MemF (g.delEdge t) ns k x ↔
        MemF g ns k x ∧ ¬(x.typ = t.typ ∧ x.id = t.id) := by
      intro ns k x
      rw [MemF, hFr]
      by_cases hk : ns = ed.From.typ ∧ k = ed.From.id
      · rw [hk.1, hk.2, NSC.get_set_selfNS]
        show x ∈ EdgeMap.delEdge mF t ↔ _
        rw [EdgeMap.mem_delEdge]
        have hmFx : ∀ y : Edge, y ∈ mF ↔ MemF g ed.From.typ ed.From.id y := by
          intro y
          rw [MemF, hmF]
          exact Iff.rfl
        rw [hmFx x]
        constructor
        · rintro ⟨h1, h2⟩
          exact ⟨h1, fun hc => h2 hc.2⟩
        · rintro ⟨h1, h2⟩
          refine ⟨h1, ?_⟩
          intro hid
          have hxl : x ∈ g.edgesList :=
            (Graph.mem_edgesList_iff g wfE wk x).mpr
              (Graph.consistent_convF g hcons _ _ x h1)
          exact h2 ((hS2 x hxl).mpr hid)
      · rw [NSC.get_set_neNS _ _ _ _ _ _ hk]
        show MemF g ns k x ↔ _
        constructor
        · intro h1
          refine ⟨h1, ?_⟩
          intro hxk
          have hxl : x ∈ g.edgesList :=
            (Graph.mem_edgesList_iff g wfE wk x).mpr
              (Graph.consistent_convF g hcons _ _ x h1)
          have hxe : x = ed := hS1 x hxl hxk.2
          subst hxe
          exact hk ⟨(Graph.memF_key g hInv2 ns k x h1).1,
            (Graph.memF_key g hInv2 ns k x h1).2⟩
        · exact fun h => h.1
    -- membership in the new To-side adjacency
    have hmemT : ∀ ns k : String, ∀ x : Edge, MemT (g.delEdge t) ns k x ↔
        MemT g ns k x ∧ ¬(x.typ = t.typ ∧ x.id = t.id) := by
      intro ns k x
      rw [MemT, hTo]
      by_cases hk : ns = ed.To.typ ∧ k = ed.To.id
      · rw [hk.1, hk.2, NSC.get_set_selfNS]
        show x ∈ EdgeMap.delEdge mT t ↔ _
        rw [EdgeMap.mem_delEdge]
        have hmTx : ∀ y : Edge, y ∈ mT ↔ MemT g ed.To.typ ed.To.id y := by
          intro y
          rw [MemT, hmT]
          exact Iff.rfl
        rw [hmTx x]
        constructor
        · rintro ⟨h1, h2⟩
          exact ⟨h1, fun hc => h2 hc.2⟩
        · rintro ⟨h1, h2⟩
          refine ⟨h1, ?_⟩
          intro hid
          have hxl : x ∈ g.edgesList :=
            (Graph.mem_edgesList_iff g wfE wk x).mpr
              (Graph.consistent_convT g hcons _ _ x h1)
          exact h2 ((hS2 x hxl).mpr hid)
      · rw [NSC.get_set_neNS _ _ _ _ _ _ hk]
        show MemT g ns k x ↔ _
        constructor
        · intro h1
          refine ⟨h1, ?_⟩
          intro hxk
          have hxl : x ∈ g.edgesList :=
            (Graph.mem_edgesList_iff g wfE wk x).mpr
              (Graph.consistent_convT g hcons _ _ x h1)
          have hxe : x = ed := hS1 x hxl hxk.2
          subst hxe
          exact hk ⟨(Graph.memT_key g hInv2 ns k x h1).1,
            (Graph.memT_key g hInv2 ns k x h1).2⟩
        · exact fun h => h.1
    -- the invariant of the new graph
    have hwfE2 : NSC.WellFormed (g.delEdge t).edges := by
      rw [hE]; exact NSC.wf_del _ _ _ wfE
    have hwfF2 : NSC.WellFormed (g.delEdge t).edgesFrom := by
      rw [hFr]; exact NSC.wf_set _ _ _ _ wfF
    have hwfT2 : NSC.WellFormed (g.delEdge t).edgesTo := by
      rw [hTo]; exact NSC.wf_set _ _ _ _ wfT
    have hwfN2 : NSC.WellFormed (g.delEdge t).nodes := by
      rw [hN]; exact wfN
    have hwk2 : WellKeyedEdges (g.delEdge t) := by
      intro tr htr
      rw [hE] at htr
      exact wk tr ((NSC.mem_lookups_del _ _ _ _ wfE).mp htr).1
    have huq2 : UniqueIds (g.delEdge t) := by
      intro x1 h1 x2 h2 hid
      exact uq x1 ((hmemE x1).mp h1).1 x2 ((hmemE x2).mp h2).1 hid
    have hcons2 : Consistent (g.delEdge t) := by
      refine ⟨?_, ?_, ?_⟩
      · intro x hx
        obtain ⟨hxg, hxk⟩ := (hmemE x).mp hx
        obtain ⟨hmf, hmt, honf, hont⟩ := hcons.1 x hxg
        refine ⟨(hmemF _ _ x).mpr ⟨hmf, hxk⟩, (hmemT _ _ x).mpr ⟨hmt, hxk⟩, ?_, ?_⟩
        · intro tr htr hxtr
          have hmem2 : MemF (g.delEdge t) tr.1 tr.2.1 x :=
            Graph.memF_of_lookups _ hwfF2 tr htr x hxtr
          have hmem : MemF g tr.1 tr.2.1 x := ((hmemF _ _ x).mp hmem2).1
          rcases Graph.memF_lookups g _ _ x hmem with ⟨m, hm, hxm⟩
          exact honf (tr.1, tr.2.1, m) (NSC.get_mem_lookups _ _ _ _ hm) hxm
        · intro tr htr hxtr
          have hmem2 : MemT (g.delEdge t) tr.1 tr.2.1 x :=
            Graph.memT_of_lookups _ hwfT2 tr htr x hxtr
          have hmem : MemT g tr.1 tr.2.1 x := ((hmemT _ _ x).mp hmem2).1
          rcases Graph.memT_lookups g _ _ x hmem with ⟨m, hm, hxm⟩
          exact hont (tr.1, tr.2.1, m) (NSC.get_mem_lookups _ _ _ _ hm) hxm
      · intro tr htr x hxtr
        have hmem2 : MemF (g.delEdge t) tr.1 tr.2.1 x :=
          Graph.memF_of_lookups _ hwfF2 tr htr x hxtr
        obtain ⟨hmem, hxk⟩ := (hmemF _ _ x).mp hmem2
        have hget := Graph.consistent_convF g hcons _ _ x hmem
        rw [hE, NSC.get_del_neNS _ _ _ _ _ hxk]
        exact hget
      · intro tr htr x hxtr
        have hmem2 : MemT (g.delEdge t) tr.1 tr.2.1 x :=
          Graph.memT_of_lookups _ hwfT2 tr htr x hxtr
        obtain ⟨hmem, hxk⟩ := (hmemT _ _ x).mp hmem2
        have hget := Graph.consistent_convT g hcons _ _ x hmem
        rw [hE, NSC.get_del_neNS _ _ _ _ _ hxk]
        exact hget
    exact ⟨⟨⟨hwfN2, hwfE2, hwfF2, hwfT2⟩, hwk2, huq2, hcons2⟩, hN, hmemE,
      hmemF, hmemT⟩

theorem Graph.addEdge_main (g : Graph) (e0 : Edge) (g2 : Graph) (hInv : Inv g)
    (hsafe : ∀ x ∈ g.edgesList, x.id = (g.assignEdgeId e0).id →
      x = g.assignEdgeId e0)
    (h : g.addEdge e0 = Except.ok g2) : Inv g2 := by
  obtain ⟨⟨wfN, wfE, wfF, wfT⟩, wk, uq, hcons⟩ := hInv
  have hInv2 : Inv g := ⟨⟨wfN, wfE, wfF, wfT⟩, wk, uq, hcons⟩
  obtain ⟨hN, hE, hFr, hTo⟩ := Graph.addEdge_components g e0 g2 h
  set e : Edge := g.assignEdgeId e0 with he
  have hwfE2 : NSC.WellFormed g2.edges := by
    rw [hE]; exact NSC.wf_set _ _ _ _ wfE
  have hwfF2 : NSC.WellFormed g2.edgesFrom := by
    rw [hFr]; exact NSC.wf_set _ _ _ _ wfF
  have hwfT2 : NSC.WellFormed g2.edgesTo := by
    rw [hTo]; exact NSC.wf_set _ _ _ _ wfT
  have hwfN2 : NSC.WellFormed g2.nodes := by
    rw [hN]; exact wfN
  have hwk2 : WellKeyedEdges g2 := by
    intro tr htr
    rw [hE] at htr
    rcases (NSC.mem_lookups_set _ _ _ _ _ wfE).mp htr with ⟨h1, _⟩ | h1
    · exact wk tr h1
    · subst h1
      exact ⟨rfl, rfl⟩
  have hmemE : ∀ x : Edge, x ∈ g2.edgesList ↔
      (x ∈ g.edgesList ∧ ¬(x.typ = e.typ ∧ x.id = e.id)) ∨ x = e := by
    intro x
    rw [Graph.mem_edgesList_iff g2 hwfE2 hwk2 x, hE]
    by_cases hxk : x.typ = e.typ ∧ x.id = e.id
    · rw [hxk.1, hxk.2, NSC.get_set_selfNS]
      constructor
      · intro h1
        injection h1 with h2
        exact Or.inr h2.symm
      · intro h1
        rcases h1 with ⟨_, h2⟩ | h2
        · exact absurd ⟨rfl, rfl⟩ h2
        · rw [h2]
    · rw [NSC.get_set_neNS _ _ _ _ _ _ hxk,
        ← Graph.mem_edgesList_iff g wfE wk x]
      constructor
      · exact fun h1 => Or.inl ⟨h1, hxk⟩
      · intro h1
        rcases h1 with ⟨h2, _⟩ | h2
        · exact h2
        · exact absurd (h2 ▸ ⟨rfl, rfl⟩) hxk
  have hmemF2 : ∀ ns k : String, ∀ x : Edge, MemF g2 ns k x ↔
      (MemF g ns k x ∧ ¬(x.typ = e.typ ∧ x.id = e.id)) ∨
        (x = e ∧ ns = e.From.typ ∧ k = e.From.id) := by
    intro ns k x
    rw [MemF, hFr]
    by_cases hk : ns = e.From.typ ∧ k = e.From.id
    · rw [hk.1, hk.2, NSC.get_set_selfNS]
      show x ∈ EdgeMap.addEdge _ e ↔ _
      rw [EdgeMap.mem_addEdge]
      constructor
      · intro h1
        rcases h1 with h1 | ⟨h1, h2⟩
        · exact Or.inr ⟨h1, rfl, rfl⟩
        · exact Or.inl ⟨by rw [MemF]; exact h1, h2⟩
      · intro h1
        rcases h1 with ⟨h1, h2⟩ | ⟨h1, _⟩
        · rw [MemF] at h1
          exact Or.inr ⟨h1, h2⟩
        · exact Or.inl h1
    · rw [NSC.get_set_neNS _ _ _ _ _ _ hk]
      show MemF g ns k x ↔ _
      constructor
      · intro h1
        refine Or.inl ⟨h1, ?_⟩
        intro hxk
        have hxl : x ∈ g.edgesList :=
          (Graph.mem_edgesList_iff g wfE wk x).mpr
            (Graph.consistent_convF g hcons _ _ x h1)
        have hxe : x = e := hsafe x hxl hxk.2
        subst hxe
        obtain ⟨hk1, hk2⟩ := Graph.memF_key g hInv2 ns k e h1
        exact hk ⟨hk1, hk2⟩
      · intro h1
        rcases h1 with ⟨h1, _⟩ | ⟨h1, hk1, hk2⟩
        · exact h1
        · exact absurd ⟨hk1, hk2⟩ hk
  have hmemT2 : ∀ ns k : String, ∀ x : Edge, MemT g2 ns k x ↔
      (MemT g ns k x ∧ ¬(x.typ = e.typ ∧ x.id = e.id)) ∨
        (x = e ∧ ns = e.To.typ ∧ k = e.To.id) := by
    intro ns k x
    rw [MemT, hTo]
    by_cases hk : ns = e.To.typ ∧ k = e.To.id
    · rw [hk.1, hk.2, NSC.get_set_selfNS]
      show x ∈ EdgeMap.addEdge _ e ↔ _
      rw [EdgeMap.mem_addEdge]
      constructor
      · intro h1
        rcases h1 with h1 | ⟨h1, h2⟩
        · exact Or.inr ⟨h1, rfl, rfl⟩
        · exact Or.inl ⟨by rw [MemT]; exact h1, h2⟩
      · intro h1
        rcases h1 with ⟨h1, h2⟩ | ⟨h1, _⟩
        · rw [MemT] at h1
          exact Or.inr ⟨h1, h2⟩
        · exact Or.inl h1
    · rw [NSC.get_set_neNS _ _ _ _ _ _ hk]
      show MemT g ns k x ↔ _
      constructor
      · intro h1
        refine Or.inl ⟨h1, ?_⟩
        intro hxk
        have hxl : x ∈ g.edgesList :=
          (Graph.mem_edgesList_iff g wfE wk x).mpr
            (Graph.consistent_convT g hcons _ _ x h1)
        have hxe : x = e := hsafe x hxl hxk.2
        subst hxe
        obtain ⟨hk1, hk2⟩ := Graph.memT_key g hInv2 ns k e h1
        exact hk ⟨hk1, hk2⟩
      · intro h1
        rcases h1 with ⟨h1, _⟩ | ⟨h1, hk1, hk2⟩
        · exact h1
        · exact absurd ⟨hk1, hk2⟩ hk
  have huq2 : UniqueIds g2 := by
    intro x1 h1 x2 h2 hid
    rcases (hmemE x1).mp h1 with ⟨h1g, h1k⟩ | h1e
    · rcases (hmemE x2).mp h2 with ⟨h2g, h2k⟩ | h2e
      · exact uq x1 h1g x2 h2g hid
      · subst h2e
        exact hsafe x1 h1g hid
    · subst h1e
      rcases (hmemE x2).mp h2 with ⟨h2g, h2k⟩ | h2e
      · exact (hsafe x2 h2g hid.symm).symm
      · rw [h2e]
  have hcons2 : Consistent g2 := by
    refine ⟨?_, ?_, ?_⟩
    · intro x hx
      rcases (hmemE x).mp hx with ⟨hxg, hxk⟩ | hxe
      · obtain ⟨hmf, hmt, _, _⟩ := hcons.1 x hxg
        refine ⟨(hmemF2 _ _ x).mpr (Or.inl ⟨hmf, hxk⟩),
          (hmemT2 _ _ x).mpr (Or.inl ⟨hmt, hxk⟩), ?_, ?_⟩
        · intro tr htr hxtr
          have hm2 : MemF g2 tr.1 tr.2.1 x :=
            Graph.memF_of_lookups _ hwfF2 tr htr x hxtr
          rcases (hmemF2 _ _ x).mp hm2 with ⟨hm, _⟩ | ⟨hxe, _⟩
          · exact ⟨(Graph.memF_key g hInv2 _ _ x hm).1,
              (Graph.memF_key g hInv2 _ _ x hm).2⟩
          · exact absurd (hxe ▸ ⟨rfl, rfl⟩) hxk
        · intro tr htr hxtr
          have hm2 : MemT g2 tr.1 tr.2.1 x :=
            Graph.memT_of_lookups _ hwfT2 tr htr x hxtr
          rcases (hmemT2 _ _ x).mp hm2 with ⟨hm, _⟩ | ⟨hxe, _⟩
          · exact ⟨(Graph.memT_key g hInv2 _ _ x hm).1,
              (Graph.memT_key g hInv2 _ _ x hm).2⟩
          · exact absurd (hxe ▸ ⟨rfl, rfl⟩) hxk
      · subst hxe
        refine ⟨(hmemF2 _ _ e).mpr (Or.inr ⟨rfl, rfl, rfl⟩),
          (hmemT2 _ _ e).mpr (Or.inr ⟨rfl, rfl, rfl⟩), ?_, ?_⟩
        · intro tr htr hxtr
          have hm2 : MemF g2 tr.1 tr.2.1 e :=
            Graph.memF_of_lookups _ hwfF2 tr htr e hxtr
          rcases (hmemF2 _ _ e).mp hm2 with ⟨_, hk⟩ | ⟨_, hk1, hk2⟩
          · exact absurd ⟨rfl, rfl⟩ hk
          · exact ⟨hk1, hk2⟩
        · intro tr htr hxtr
          have hm2 : MemT g2 tr.1 tr.2.1 e :=
            Graph.memT_of_lookups _ hwfT2 tr htr e hxtr
          rcases (hmemT2 _ _ e).mp hm2 with ⟨_, hk⟩ | ⟨_, hk1, hk2⟩
          · exact absurd ⟨rfl, rfl⟩ hk
          · exact ⟨hk1, hk2⟩
    · intro tr htr x hxtr
      have hm2 : MemF g2 tr.1 tr.2.1 x :=
        Graph.memF_of_lookups _ hwfF2 tr htr x hxtr
      rcases (hmemF2 _ _ x).mp hm2 with ⟨hm, hk⟩ | ⟨hxe, _⟩
      · have hget := Graph.consistent_convF g hcons _ _ x hm
        rw [hE, NSC.get_set_neNS _ _ _ _ _ _ hk]
        exact hget
      · subst hxe
        rw [hE, NSC.get_set_selfNS]
    · intro tr htr x hxtr
      have hm2 : MemT g2 tr.1 tr.2.1 x :=
        Graph.memT_of_lookups _ hwfT2 tr htr x hxtr
      rcases (hmemT2 _ _ x).mp hm2 with ⟨hm, hk⟩ | ⟨hxe, _⟩
      · have hget := Graph.consistent_convT g hcons _ _ x hm
        rw [hE, NSC.get_set_neNS _ _ _ _ _ _ hk]
        exact hget
      · subst hxe
        rw [hE, NSC.get_set_selfNS]
  exact ⟨⟨hwfN2, hwfE2, hwfF2, hwfT2⟩, hwk2, huq2, hcons2⟩

theorem Graph.edgesList_of_get (g : Graph) (x : Edge)
    (h : NSC.get g.edges x.typ x.id = some x) : x ∈ g.edgesList :=
  (NSC.mem_values_iff g.edges x).mpr
    ⟨x.typ, x.id, NSC.get_mem_lookups _ _ _ _ h⟩

theorem Graph.mem_edgesFromList (g : Graph) (et : String) (t : TypedID)
    (x : Edge) :
    x ∈ g.edgesFromList et t ↔
      MemF g t.typ t.id x ∧ (et = AnyType ∨ x.typ = et) := by
  rw [Graph.edgesFromList, MemF]
  rcases hg : NSC.get g.edgesFrom t.typ t.id with _ | m
  · simp
  · show x ∈ EdgeMap.rangeTypeList m et ↔ _
    rw [EdgeMap.mem_rangeTypeList]
    exact Iff.rfl

theorem Graph.mem_edgesToList (g : Graph) (et : String) (t : TypedID)
    (x : Edge) :
    x ∈ g.edgesToList et t ↔
      MemT g t.typ t.id x ∧ (et = AnyType ∨ x.typ = et) := by
  rw [Graph.edgesToList, MemT]
  rcases hg : NSC.get g.edgesTo t.typ t.id with _ | m
  · simp
  · show x ∈ EdgeMap.rangeTypeList m et ↔ _
    rw [EdgeMap.mem_rangeTypeList]
    exact Iff.rfl

theorem Consistent_congr (g g2 : Graph) (hE : g2.edges = g.edges)
    (hF : g2.edgesFrom = g.edgesFrom) (hT : g2.edgesTo = g.edgesTo)
    (h : Consistent g) : Consistent g2 := by
  unfold Consistent MemF MemT Graph.edgesList
  rw [hE, hF, hT]
  exact h

theorem Inv_congr (g g2 : Graph) (hE : g2.edges = g.edges)
    (hF : g2.edgesFrom = g.edgesFrom) (hT : g2.edgesTo = g.edgesTo)
    (hN : NSC.WellFormed g2.nodes) (h : Inv g) : Inv g2 := by
  obtain ⟨⟨_, wfE, wfF, wfT⟩, wk, uq, hcons⟩ := h
  refine ⟨⟨hN, by rw [hE]; exact wfE, by rw [hF]; exact wfF,
    by rw [hT]; exact wfT⟩, ?_, ?_, ?_⟩
  · intro tr htr
    rw [hE] at htr
    exact wk tr htr
  · intro x1 h1 x2 h2 hid
    rw [Graph.edgesList, hE] at h1 h2
    exact uq x1 h1 x2 h2 hid
  · exact Consistent_congr g g2 hE hF hT hcons

theorem Graph.addNode_main (g : Graph) (n : Node) (hInv : Inv g) :
    Inv (g.addNode n) := by
  obtain ⟨hE, hF, hT⟩ := Graph.addNode_untouched g n
  obtain ⟨ns, k, v, hNset⟩ := Graph.addNode_nodes_set g n
  refine Inv_congr g (g.addNode n) hE hF hT ?_ hInv
  rw [hNset]
  exact NSC.wf_set _ _ _ _ hInv.1.1

theorem Graph.foldDel_main (l : List Edge) (g : Graph) (hInv : Inv g) :
    Inv (l.foldl (fun acc x => Graph.delEdge acc ⟨x.typ, x.id⟩) g) ∧
    (l.foldl (fun acc x => Graph.delEdge acc ⟨x.typ, x.id⟩) g).nodes = g.nodes ∧
    (∀ y : Edge,
        y ∈ (l.foldl (fun acc x => Graph.delEdge acc ⟨x.typ, x.id⟩) g).edgesList ↔
        y ∈ g.edgesList ∧ ∀ x ∈ l, ¬(y.typ = x.typ ∧ y.id = x.id)) ∧
    (∀ ns k : String, ∀ y : Edge,
        MemF (l.foldl (fun acc x => Graph.delEdge acc ⟨x.typ, x.id⟩) g) ns k y ↔
        MemF g ns k y ∧ ∀ x ∈ l, ¬(y.typ = x.typ ∧ y.id = x.id)) ∧
    (∀ ns k : String, ∀ y : Edge,
        MemT (l.foldl (fun acc x => Graph.delEdge acc ⟨x.typ, x.id⟩) g) ns k y ↔
        MemT g ns k y ∧ ∀ x ∈ l, ¬(y.typ = x.typ ∧ y.id = x.id)) := by
  induction l generalizing g with
  | nil =>
      refine ⟨hInv, rfl, ?_, ?_, ?_⟩ <;> intros <;> simp
  | cons x xs ih =>
      obtain ⟨inv1, hn1, he1, hf1, ht1⟩ :=
        Graph.delEdge_main g ⟨x.typ, x.id⟩ hInv
      obtain ⟨inv2, hn2, he2, hf2, ht2⟩ := ih _ inv1
      simp only [List.foldl_cons]
      refine ⟨inv2, hn2.trans hn1, ?_, ?_, ?_⟩
      · intro y
        rw [he2 y, he1 y]
        simp only [List.forall_mem_cons]
        tauto
      · intro ns k y
        rw [hf2 ns k y, hf1 ns k y]
        simp only [List.forall_mem_cons]
        tauto
      · intro ns k y
        rw [ht2 ns k y, ht1 ns k y]
        simp only [List.forall_mem_cons]
        tauto

theorem Graph.delNode_eq (g : Graph) (t : TypedID) :
    g.delNode t =
      { ((NSC.get g.edgesFrom t.typ t.id).getD []).foldl
          (fun acc x => Graph.delEdge acc ⟨x.typ, x.id⟩) g with
        nodes := NSC.del
          (((NSC.get g.edgesFrom t.typ t.id).getD []).foldl
            (fun acc x => Graph.delEdge acc ⟨x.typ, x.id⟩) g).nodes
          t.typ t.id } := by
  rw [Graph.delNode]
  rcases hm : NSC.get g.edgesFrom t.typ t.id with _ | m <;> simp [hm]

theorem Graph.delNode_main (g : Graph) (t : TypedID) (hInv : Inv g) :
    Inv (g.delNode t) ∧
    (g.delNode t).hasNode t = false ∧
    (∀ y ∈ g.edgesList, y.From = t →
        y ∉ (g.delNode t).edgesList ∧
        (g.delNode t).getEdge ⟨y.typ, y.id⟩ = none ∧
        ¬ MemF (g.delNode t) t.typ t.id y ∧
        ¬ MemT (g.delNode t) y.To.typ y.To.id y) := by
  obtain ⟨inv1, hn1, he1, hf1, ht1⟩ :=
    Graph.foldDel_main ((NSC.get g.edgesFrom t.typ t.id).getD []) g hInv
  rw [Graph.delNode_eq g t]
  set g1 : Graph := ((NSC.get g.edgesFrom t.typ t.id).getD []).foldl
    (fun acc x => Graph.delEdge acc ⟨x.typ, x.id⟩) g with hg1
  have hmemIn : ∀ y ∈ g.edgesList, y.From = t →
      y ∈ (NSC.get g.edgesFrom t.typ t.id).getD [] := by
    intro y hy hft
    have := (hInv.2.2.2.1 y hy).1
    rw [hft] at this
    exact this
  refine ⟨?_, ?_, ?_⟩
  · refine Inv_congr g1 _ rfl rfl rfl ?_ inv1
    exact NSC.wf_del _ _ _ inv1.1.1
  · show (NSC.get (NSC.del g1.nodes t.typ t.id) t.typ t.id).isSome = false
    rw [NSC.get_del_selfNS]
    rfl
  · intro y hy hft
    have hym := hmemIn y hy hft
    have hykey : ¬ ∀ x ∈ (NSC.get g.edgesFrom t.typ t.id).getD [],
        ¬(y.typ = x.typ ∧ y.id = x.id) := by
      intro hall
      exact hall y hym ⟨rfl, rfl⟩
    refine ⟨?_, ?_, ?_, ?_⟩
    · intro hmem
      rw [Graph.edgesList] at hmem
      have hmem2 : y ∈ g1.edgesList := hmem
      exact hykey ((he1 y).mp hmem2).2
    · show NSC.get g1.edges y.typ y.id = none
      rcases hz : NSC.get g1.edges y.typ y.id with _ | z
      · rfl
      · exfalso
        have hzk := inv1.2.1 (y.typ, y.id, z) (NSC.get_mem_lookups _ _ _ _ hz)
        obtain ⟨hz1, hz2⟩ := hzk
        simp only at hz1 hz2
        have hzl : z ∈ g1.edgesList := Graph.edgesList_of_get g1 z
          (by rw [hz1, hz2]; exact hz)
        have := ((he1 z).mp hzl).2 y hym
        exact this ⟨hz1, hz2⟩
    · intro hmem
      rw [MemF] at hmem
      have hmem2 : MemF g1 t.typ t.id y := hmem
      exact hykey ((hf1 _ _ y).mp hmem2).2
    · intro hmem
      rw [MemT] at hmem
      have hmem2 : MemT g1 y.To.typ y.To.id y := hmem
      exact hykey ((ht1 _ _ y).mp hmem2).2

theorem TypedID.ext2 (a b : TypedID) (h1 : a.typ = b.typ)
    (h2 : a.id = b.id) : a = b := by
  cases a
  cases b
  simp only at h1 h2
  rw [h1, h2]

theorem Graph.delNode_noop (g : Graph) (t : TypedID) (hc : Consistent g)
    (hfc : FromClosed g) (hn : g.hasNode t = false) : g.delNode t = g := by
  have hm : ∀ y : Edge, y ∈ (NSC.get g.edgesFrom t.typ t.id).getD [] → False := by
    intro y hy
    have hymem : MemF g t.typ t.id y := hy
    have hget := Graph.consistent_convF g hc t.typ t.id y hymem
    have hyl : y ∈ g.edgesList := Graph.edgesList_of_get g y hget
    rcases Graph.memF_lookups g t.typ t.id y hymem with ⟨m, hgm, hym2⟩
    have hkeys := (hc.1 y hyl).2.2.1 (t.typ, t.id, m)
      (NSC.get_mem_lookups _ _ _ _ hgm) hym2
    have hft : y.From = t := by
      obtain ⟨k1, k2⟩ := hkeys
      simp only at k1 k2
      exact TypedID.ext2 y.From t k1.symm k2.symm
    have := hfc y hyl
    rw [hft] at this
    rw [this] at hn
    exact absurd hn (by simp)
  have hfold : (NSC.get g.edgesFrom t.typ t.id).getD [] = [] := by
    rcases hg : (NSC.get g.edgesFrom t.typ t.id).getD [] with _ | ⟨y, ys⟩
    · rfl
    · exact absurd (hg ▸ List.mem_cons_self y ys) (fun h => hm y h)
  rw [Graph.delNode_eq g t, hfold]
  simp only [List.foldl_nil]
  have hnodes : NSC.get g.nodes t.typ t.id = none := by
    rw [Graph.hasNode, Graph.getNode] at hn
    rcases hx : NSC.get g.nodes t.typ t.id with _ | x
    · rfl
    · rw [hx] at hn
      exact absurd hn (by simp)
  rw [NSC.del_eq_self_of_get_noneNS _ _ _ hnodes]

theorem Inv_empty : Inv emptyGraph := by decide

theorem Graph.run_inv (ops : List Op) (g : Graph) (hInv : Inv g)
    (hs : SafeSeq g ops) : Inv (g.run ops) := by
  induction ops generalizing g with
  | nil => exact hInv
  | cons op rest ih =>
      have hrun : g.run (op :: rest) = (g.applyOp op).run rest := rfl
      rw [hrun]
      cases op with
      | addN n =>
          cases hs with
          | addN _ _ _ hrest =>
              exact ih _ (Graph.addNode_main g n hInv) hrest
      | addE e =>
          cases hs with
          | addE _ _ _ hsafe hrest =>
              refine ih _ ?_ hrest
              show Inv (g.applyOp (Op.addE e))
              rw [Graph.applyOp]
              cases hae : g.addEdge e with
              | ok g2 => exact Graph.addEdge_main g e g2 hInv hsafe hae
              | error err => exact hInv
      | delN t =>
          cases hs with
          | delN _ _ _ hrest =>
              exact ih _ (Graph.delNode_main g t hInv).1 hrest
      | delE t =>
          cases hs with
          | delE _ _ _ hrest =>
              exact ih _ (Graph.delEdge_main g t hInv).1 hrest

/-! The claims. -/

/-- C1: AddEdge returns an error exactly when the edge's type, From or To
is empty (a validation error) or one of the endpoints is not a stored node
(a not-found error); on an error the edges map and both adjacency indices
are exactly as before the call. -/
theorem C1_addEdge_error_iff_and_unchanged (g : Graph) (e : Edge) :
    ((∃ err, g.addEdge e = Except.error err) ↔
      ((e.typ = "" ∨ e.From = TypedID.empty ∨ e.To = TypedID.empty) ∨
       g.hasNode e.From = false ∨ g.hasNode e.To = false)) ∧
    (g.addEdge e = Except.error GraphErr.validation ↔
      (e.typ = "" ∨ e.From = TypedID.empty ∨ e.To = TypedID.empty)) ∧
    ((∃ t, g.addEdge e = Except.error (GraphErr.notFound t)) ↔
      (¬(e.typ = "" ∨ e.From = TypedID.empty ∨ e.To = TypedID.empty) ∧
       (g.hasNode e.From = false ∨ g.hasNode e.To = false))) ∧
    (∀ err, g.addEdge e = Except.error err →
      (g.applyOp (Op.addE e)).edges = g.edges ∧
      (g.applyOp (Op.addE e)).edgesFrom = g.edgesFrom ∧
      (g.applyOp (Op.addE e)).edgesTo = g.edgesTo ∧
      (g.applyOp (Op.addE e)).nodes = g.nodes) := by
  have hVal := Graph.assignEdgeId_Validate g e
  obtain ⟨hfT, hfF, hfTo⟩ := Graph.assignEdgeId_fields g e
  have hValF : (g.assignEdgeId e).Validate = false ↔
      (e.typ = "" ∨ e.From = TypedID.empty ∨ e.To = TypedID.empty) := by
    rw [hVal, Edge.Validate_eq_false_iff]
  have hValT : (g.assignEdgeId e).Validate = true ↔
      ¬(e.typ = "" ∨ e.From = TypedID.empty ∨ e.To = TypedID.empty) := by
    rw [← hValF]
    cases (g.assignEdgeId e).Validate <;> simp
  have hB : g.addEdge e = Except.error GraphErr.validation ↔
      (e.typ = "" ∨ e.From = TypedID.empty ∨ e.To = TypedID.empty) := by
    rw [Graph.addEdge_error_validation_iff, hValF]
  have hC : (∃ t, g.addEdge e = Except.error (GraphErr.notFound t)) ↔
      (¬(e.typ = "" ∨ e.From = TypedID.empty ∨ e.To = TypedID.empty) ∧
       (g.hasNode e.From = false ∨ g.hasNode e.To = false)) := by
    rw [Graph.addEdge_error_notFound_iff, hValT, hfF, hfTo]
  refine ⟨?_, hB, hC, ?_⟩
  · constructor
    · rintro ⟨err, herr⟩
      cases err with
      | validation => exact Or.inl (hB.mp herr)
      | notFound t =>
          exact Or.inr (hC.mp ⟨t, herr⟩).2
    · intro h
      by_cases hempty : e.typ = "" ∨ e.From = TypedID.empty ∨ e.To = TypedID.empty
      · exact ⟨GraphErr.validation, hB.mpr hempty⟩
      · rcases h with h | h
        · exact absurd h hempty
        · rcases hC.mpr ⟨hempty, h⟩ with ⟨t, ht⟩
          exact ⟨GraphErr.notFound t, ht⟩
  · intro err herr
    rw [Graph.applyOp]
    rw [herr]
    exact ⟨rfl, rfl, rfl, rfl⟩

theorem C1_witness :
    ∃ err, Graph.addEdge emptyGraph ⟨"t", "x", ⟨"u", "a"⟩, ⟨"u", "b"⟩⟩ =
      Except.error err :=
  (C1_addEdge_error_iff_and_unchanged emptyGraph
    ⟨"t", "x", ⟨"u", "a"⟩, ⟨"u", "b"⟩⟩).1.mpr (by decide)

/-- C2 counterexample: from the empty graph, adding nodes a, b, c and then
two edges that share the (type, id) pair (t, x) but have different From
endpoints leaves a stale adjacency entry; after DelNode(a) the edge with
From = a is still enumerated by EdgesFrom(a), although the claim requires
every such edge to be gone from that iteration. -/
theorem C2_counterexample :
    ((⟨"t", "x", ⟨"u", "a"⟩, ⟨"u", "b"⟩⟩ : Edge) ∈
      ((Graph.run emptyGraph
          [Op.addN ⟨"u", "a"⟩, Op.addN ⟨"u", "b"⟩, Op.addN ⟨"u", "c"⟩,
           Op.addE ⟨"t", "x", ⟨"u", "a"⟩, ⟨"u", "b"⟩⟩,
           Op.addE ⟨"t", "x", ⟨"u", "c"⟩, ⟨"u", "b"⟩⟩]).delNode
        ⟨"u", "a"⟩).edgesFromList AnyType ⟨"u", "a"⟩) ∧
    (⟨"t", "x", ⟨"u", "a"⟩, ⟨"u", "b"⟩⟩ : Edge).From = (⟨"u", "a"⟩ : TypedID) ∧
    ((Graph.run emptyGraph
        [Op.addN ⟨"u", "a"⟩, Op.addN ⟨"u", "b"⟩, Op.addN ⟨"u", "c"⟩,
         Op.addE ⟨"t", "x", ⟨"u", "a"⟩, ⟨"u", "b"⟩⟩,
         Op.addE ⟨"t", "x", ⟨"u", "c"⟩, ⟨"u", "b"⟩⟩]).delNode
      ⟨"u", "a"⟩).hasNode ⟨"u", "a"⟩ = false := by
  decide

/-- C2 (amended): on a graph satisfying the structural invariant (four-index
consistency with unique edge ids and well-keyed duplicate-free caches),
after DelNode(X) the node X is gone and every stored edge whose From
endpoint was X is gone from the edges map (GetEdge/HasEdge fail), from the
EdgesFrom(X) iteration and from its To endpoint's EdgesTo list. -/
theorem C2_delNode_cascade (g : Graph) (X : TypedID) (hInv : Inv g) :
    (g.delNode X).hasNode X = false ∧
    ∀ e ∈ g.edgesList, e.From = X →
      e ∉ (g.delNode X).edgesList ∧
      (g.delNode X).getEdge ⟨e.typ, e.id⟩ = none ∧
      (g.delNode X).hasEdge ⟨e.typ, e.id⟩ = false ∧
      e ∉ (g.delNode X).edgesFromList AnyType X ∧
      e ∉ (g.delNode X).edgesToList AnyType e.To := by
  obtain ⟨hinv2, hhn, hdel⟩ := Graph.delNode_main g X hInv
  refine ⟨hhn, ?_⟩
  intro e he hft
  obtain ⟨h1, h2, h3, h4⟩ := hdel e he hft
  refine ⟨h1, h2, ?_, ?_, ?_⟩
  · rw [Graph.hasEdge, h2]
    rfl
  · intro hmem
    exact h3 ((Graph.mem_edgesFromList _ _ _ _).mp hmem).1
  · intro hmem
    exact h4 ((Graph.mem_edgesToList _ _ _ _).mp hmem).1

theorem C2_witness :
    Inv (Graph.run emptyGraph [Op.addN ⟨"u", "a"⟩, Op.addN ⟨"u", "b"⟩,
      Op.addE ⟨"t", "x", ⟨"u", "a"⟩, ⟨"u", "b"⟩⟩]) ∧
    (((Graph.run emptyGraph [Op.addN ⟨"u", "a"⟩, Op.addN ⟨"u", "b"⟩,
        Op.addE ⟨"t", "x", ⟨"u", "a"⟩, ⟨"u", "b"⟩⟩]).delNode
      ⟨"u", "a"⟩).hasNode ⟨"u", "a"⟩ = false ∧
     ∀ e ∈ (Graph.run emptyGraph [Op.addN ⟨"u", "a"⟩, Op.addN ⟨"u", "b"⟩,
        Op.addE ⟨"t", "x", ⟨"u", "a"⟩, ⟨"u", "b"⟩⟩]).edgesList,
       e.From = (⟨"u", "a"⟩ : TypedID) →
       e ∉ ((Graph.run emptyGraph [Op.addN ⟨"u", "a"⟩, Op.addN ⟨"u", "b"⟩,
          Op.addE ⟨"t", "x", ⟨"u", "a"⟩, ⟨"u", "b"⟩⟩]).delNode
          ⟨"u", "a"⟩).edgesList ∧
       ((Graph.run emptyGraph [Op.addN ⟨"u", "a"⟩, Op.addN ⟨"u", "b"⟩,
          Op.addE ⟨"t", "x", ⟨"u", "a"⟩, ⟨"u", "b"⟩⟩]).delNode
          ⟨"u", "a"⟩).getEdge ⟨e.typ, e.id⟩ = none ∧
       ((Graph.run emptyGraph [Op.addN ⟨"u", "a"⟩, Op.addN ⟨"u", "b"⟩,
          Op.addE ⟨"t", "x", ⟨"u", "a"⟩, ⟨"u", "b"⟩⟩]).delNode
          ⟨"u", "a"⟩).hasEdge ⟨e.typ, e.id⟩ = false ∧
       e ∉ ((Graph.run emptyGraph [Op.addN ⟨"u", "a"⟩, Op.addN ⟨"u", "b"⟩,
          Op.addE ⟨"t", "x", ⟨"u", "a"⟩, ⟨"u", "b"⟩⟩]).delNode
          ⟨"u", "a"⟩).edgesFromList AnyType ⟨"u", "a"⟩ ∧
       e ∉ ((Graph.run emptyGraph [Op.addN ⟨"u", "a"⟩, Op.addN ⟨"u", "b"⟩,
          Op.addE ⟨"t", "x", ⟨"u", "a"⟩, ⟨"u", "b"⟩⟩]).delNode
          ⟨"u", "a"⟩).edgesToList AnyType e.To) :=
  ⟨by decide,
   C2_delNode_cascade
     (Graph.run emptyGraph [Op.addN ⟨"u", "a"⟩, Op.addN ⟨"u", "b"⟩,
       Op.addE ⟨"t", "x", ⟨"u", "a"⟩, ⟨"u", "b"⟩⟩]) ⟨"u", "a"⟩ (by decide)⟩

/-- C3 counterexample: the five-operation sequence that adds nodes a, b, c
and then two edges sharing the (type, id) pair (t, x) with different From
endpoints drives the graph out of the four-index consistency invariant:
the first edge remains in an edgesFrom adjacency entry although the edges
map no longer holds it. -/
theorem C3_counterexample :
    ¬ Consistent (Graph.run emptyGraph
      [Op.addN ⟨"u", "a"⟩, Op.addN ⟨"u", "b"⟩, Op.addN ⟨"u", "c"⟩,
       Op.addE ⟨"t", "x", ⟨"u", "a"⟩, ⟨"u", "b"⟩⟩,
       Op.addE ⟨"t", "x", ⟨"u", "c"⟩, ⟨"u", "b"⟩⟩]) := by
  decide

/-- C3 (amended): after every finite sequence of AddNode, AddEdge, DelNode
and DelEdge operations from the empty graph in which no AddEdge call
reuses the id of a different edge stored at that moment, the four indices
are mutually consistent: every stored edge appears exactly in the
From-side adjacency entry of its From endpoint and the To-side entry of
its To endpoint, and every adjacency-held edge is present in the edges
map. -/
theorem C3_consistency (ops : List Op) (hs : SafeSeq emptyGraph ops) :
    Consistent (Graph.run emptyGraph ops) :=
  (Graph.run_inv ops emptyGraph Inv_empty hs).2.2.2

theorem C3_witness :
    Consistent (Graph.run emptyGraph
      [Op.addN ⟨"u", "a"⟩, Op.addN ⟨"u", "b"⟩,
       Op.addE ⟨"t", "x", ⟨"u", "a"⟩, ⟨"u", "b"⟩⟩]) :=
  C3_consistency
    [Op.addN ⟨"u", "a"⟩, Op.addN ⟨"u", "b"⟩,
     Op.addE ⟨"t", "x", ⟨"u", "a"⟩, ⟨"u", "b"⟩⟩]
    (SafeSeq.addN _ _ _ (SafeSeq.addN _ _ _
      (SafeSeq.addE _ _ _ (by decide) (SafeSeq.nil _))))

/-- C6: for a valid edge whose endpoints are both stored nodes, AddEdge
succeeds, stores the (id-assigned) edge under its (type, id) so that
GetEdge and HasEdge find it, and the edge appears in the From endpoint's
outbound and the To endpoint's inbound adjacency, both under its own edge
type and under the wildcard type. -/
theorem C6_addEdge_success (g : Graph) (e : Edge)
    (hV : e.Validate = true) (hF : g.hasNode e.From = true)
    (hT : g.hasNode e.To = true) :
    ∃ g2, g.addEdge e = Except.ok g2 ∧
      g2.getEdge ⟨(g.assignEdgeId e).typ, (g.assignEdgeId e).id⟩ =
        some (g.assignEdgeId e) ∧
      g2.hasEdge ⟨(g.assignEdgeId e).typ, (g.assignEdgeId e).id⟩ = true ∧
      g.assignEdgeId e ∈ g2.edgesFromList (g.assignEdgeId e).typ e.From ∧
      g.assignEdgeId e ∈ g2.edgesFromList AnyType e.From ∧
      g.assignEdgeId e ∈ g2.edgesToList (g.assignEdgeId e).typ e.To ∧
      g.assignEdgeId e ∈ g2.edgesToList AnyType e.To := by
  obtain ⟨hfT, hfF, hfTo⟩ := Graph.assignEdgeId_fields g e
  have hok : ∃ g2, g.addEdge e = Except.ok g2 := by
    rw [Graph.addEdge_ok_iff, Graph.assignEdgeId_Validate, hfF, hfTo]
    exact ⟨hV, hF, hT⟩
  obtain ⟨g2, hg2⟩ := hok
  obtain ⟨hN, hE, hFr, hTo⟩ := Graph.addEdge_components g e g2 hg2
  refine ⟨g2, hg2, ?_, ?_, ?_, ?_, ?_, ?_⟩
  · rw [Graph.getEdge]
    show NSC.get g2.edges (g.assignEdgeId e).typ (g.assignEdgeId e).id = _
    rw [hE, NSC.get_set_selfNS]
  · rw [Graph.hasEdge, Graph.getEdge]
    show (NSC.get g2.edges (g.assignEdgeId e).typ (g.assignEdgeId e).id).isSome = true
    rw [hE, NSC.get_set_selfNS]
    rfl
  · rw [Graph.mem_edgesFromList]
    constructor
    · rw [MemF, ← hfF, hFr, NSC.get_set_selfNS]
      show g.assignEdgeId e ∈ EdgeMap.addEdge _ _
      rw [EdgeMap.mem_addEdge]
      exact Or.inl rfl
    · exact Or.inr rfl
  · rw [Graph.mem_edgesFromList]
    constructor
    · rw [MemF, ← hfF, hFr, NSC.get_set_selfNS]
      show g.assignEdgeId e ∈ EdgeMap.addEdge _ _
      rw [EdgeMap.mem_addEdge]
      exact Or.inl rfl
    · exact Or.inl rfl
  · rw [Graph.mem_edgesToList]
    constructor
    · rw [MemT, ← hfTo, hTo, NSC.get_set_selfNS]
      show g.assignEdgeId e ∈ EdgeMap.addEdge _ _
      rw [EdgeMap.mem_addEdge]
      exact Or.inl rfl
    · exact Or.inr rfl
  · rw [Graph.mem_edgesToList]
    constructor
    · rw [MemT, ← hfTo, hTo, NSC.get_set_selfNS]
      show g.assignEdgeId e ∈ EdgeMap.addEdge _ _
      rw [EdgeMap.mem_addEdge]
      exact Or.inl rfl
    · exact Or.inl rfl

theorem C6_witness :
    (⟨"t", "x", ⟨"u", "a"⟩, ⟨"u", "b"⟩⟩ : Edge).Validate = true ∧
    ∃ g2, (Graph.run emptyGraph [Op.addN ⟨"u", "a"⟩, Op.addN ⟨"u", "b"⟩]).addEdge
        ⟨"t", "x", ⟨"u", "a"⟩, ⟨"u", "b"⟩⟩ = Except.ok g2 :=
  ⟨by decide, by
    obtain ⟨g2, h, _⟩ := C6_addEdge_success
      (Graph.run emptyGraph [Op.addN ⟨"u", "a"⟩, Op.addN ⟨"u", "b"⟩])
      ⟨"t", "x", ⟨"u", "a"⟩, ⟨"u", "b"⟩⟩ (by decide) (by decide) (by decide)
    exact ⟨g2, h⟩⟩

/-- C7 counterexample: a reachable graph state (built with a duplicated
edge id) in which DelNode on a TypedID that is not a stored node deletes
an edge, so the indices are not left unchanged. -/
theorem C7_counterexample :
    (Graph.run emptyGraph
      [Op.addN ⟨"u", "a"⟩, Op.addN ⟨"u", "b"⟩, Op.addN ⟨"u", "c"⟩,
       Op.addE ⟨"t", "x", ⟨"u", "a"⟩, ⟨"u", "b"⟩⟩,
       Op.addE ⟨"t", "x", ⟨"u", "c"⟩, ⟨"u", "b"⟩⟩,
       Op.delN ⟨"u", "a"⟩,
       Op.addE ⟨"t", "x", ⟨"u", "c"⟩, ⟨"u", "b"⟩⟩]).hasNode ⟨"u", "a"⟩
      = false ∧
    ¬ ((Graph.run emptyGraph
        [Op.addN ⟨"u", "a"⟩, Op.addN ⟨"u", "b"⟩, Op.addN ⟨"u", "c"⟩,
         Op.addE ⟨"t", "x", ⟨"u", "a"⟩, ⟨"u", "b"⟩⟩,
         Op.addE ⟨"t", "x", ⟨"u", "c"⟩, ⟨"u", "b"⟩⟩,
         Op.delN ⟨"u", "a"⟩,
         Op.addE ⟨"t", "x", ⟨"u", "c"⟩, ⟨"u", "b"⟩⟩]).delNode
        ⟨"u", "a"⟩).edges =
      (Graph.run emptyGraph
        [Op.addN ⟨"u", "a"⟩, Op.addN ⟨"u", "b"⟩, Op.addN ⟨"u", "c"⟩,
         Op.addE ⟨"t", "x", ⟨"u", "a"⟩, ⟨"u", "b"⟩⟩,
         Op.addE ⟨"t", "x", ⟨"u", "c"⟩, ⟨"u", "b"⟩⟩,
         Op.delN ⟨"u", "a"⟩,
         Op.addE ⟨"t", "x", ⟨"u", "c"⟩, ⟨"u", "b"⟩⟩]).edges := by
  decide

/-- C7 (amended): DelEdge on an id that is not a stored edge returns the
graph unchanged, with no extra hypotheses; DelNode on an id that is not a
stored node returns the graph unchanged provided the graph satisfies the
four-index consistency invariant and every stored edge's From endpoint is
a stored node. -/
theorem C7_del_missing_noop (g : Graph) (t : TypedID) :
    (g.hasEdge t = false → g.delEdge t = g) ∧
    (Consistent g → FromClosed g → g.hasNode t = false → g.delNode t = g) := by
  constructor
  · intro h
    apply Graph.delEdge_of_get_none
    rw [Graph.hasEdge, Graph.getEdge] at h
    rcases hx : NSC.get g.edges t.typ t.id with _ | x
    · rfl
    · rw [hx] at h
      exact absurd h (by simp)
  · exact fun hc hfc hn => Graph.delNode_noop g t hc hfc hn

theorem C7_witness :
    (Graph.run emptyGraph [Op.addN ⟨"u", "a"⟩, Op.addN ⟨"u", "b"⟩,
        Op.addE ⟨"t", "x", ⟨"u", "a"⟩, ⟨"u", "b"⟩⟩]).hasEdge ⟨"t", "zz"⟩
      = false ∧
    (Graph.run emptyGraph [Op.addN ⟨"u", "a"⟩, Op.addN ⟨"u", "b"⟩,
        Op.addE ⟨"t", "x", ⟨"u", "a"⟩, ⟨"u", "b"⟩⟩]).delEdge ⟨"t", "zz"⟩ =
      Graph.run emptyGraph [Op.addN ⟨"u", "a"⟩, Op.addN ⟨"u", "b"⟩,
        Op.addE ⟨"t", "x", ⟨"u", "a"⟩, ⟨"u", "b"⟩⟩] ∧
    (Graph.run emptyGraph [Op.addN ⟨"u", "a"⟩, Op.addN ⟨"u", "b"⟩,
        Op.addE ⟨"t", "x", ⟨"u", "a"⟩, ⟨"u", "b"⟩⟩]).delNode ⟨"w", "zz"⟩ =
      Graph.run emptyGraph [Op.addN ⟨"u", "a"⟩, Op.addN ⟨"u", "b"⟩,
        Op.addE ⟨"t", "x", ⟨"u", "a"⟩, ⟨"u", "b"⟩⟩] :=
  ⟨by decide,
   (C7_del_missing_noop (Graph.run emptyGraph [Op.addN ⟨"u", "a"⟩,
      Op.addN ⟨"u", "b"⟩, Op.addE ⟨"t", "x", ⟨"u", "a"⟩, ⟨"u", "b"⟩⟩])
      ⟨"t", "zz"⟩).1 (by decide),
   (C7_del_missing_noop (Graph.run emptyGraph [Op.addN ⟨"u", "a"⟩,
      Op.addN ⟨"u", "b"⟩, Op.addE ⟨"t", "x", ⟨"u", "a"⟩, ⟨"u", "b"⟩⟩])
      ⟨"w", "zz"⟩).2 (by decide) (by decide) (by decide)⟩

theorem visitStop_eq_takeWhile {α : Type} (fn : α → Bool) (l : List α) :
    visitStop fn l = l.takeWhile fn ++ (l.dropWhile fn).take 1 := by
  induction l with
  | nil => rfl
  | cons a as ih =>
      by_cases h : fn a
      · rw [visitStop, if_pos h, List.takeWhile_cons_of_pos h,
          List.dropWhile_cons_of_pos h, ih]
        rfl
      · rw [visitStop, if_neg h, List.takeWhile_cons_of_neg (by simpa using h),
          List.dropWhile_cons_of_neg (by simpa using h)]
        rfl

theorem foldl_append_acc {α β : Type} (L : List α) (f : α → List β)
    (acc : List β) :
    L.foldl (fun acc2 a => acc2 ++ f a) acc = acc ++ (L.map f).flatten := by
  induction L generalizing acc with
  | nil => simp
  | cons a as ih => simp [List.foldl_cons, ih, List.append_assoc]

/-- C5 counterexample: with two node namespaces and a callback that always
answers false, RangeNodes invokes the callback once per namespace; the
visit sequence has an entry after the one on which the callback answered
false, so the iteration did not stop entirely. -/
theorem C5_counterexample :
    ¬ StopsEntirely (fun _ => false)
      ((Graph.run emptyGraph
        [Op.addN ⟨"a", "1"⟩, Op.addN ⟨"b", "2"⟩]).rangeNodesVisits
        (fun _ => false)) := by
  decide

/-- C5 (amended): the stop signal of the callback halts iteration only
inside the namespace being ranged: RangeNodes, RangeEdges and a
wildcard-namespace Range visit, for EVERY namespace in turn, the entries
of that namespace up to and including the first entry on which the
callback answers false, and then continue with the next namespace. -/
theorem C5_early_stop_per_namespace :
    (∀ (g : Graph) (fn : Node → Bool),
      g.rangeNodesVisits fn =
        ((NSC.namespacesL g.nodes).map (fun ns =>
          (((NSC.entriesL g.nodes ns).map (fun q => q.2)).takeWhile fn ++
           ((((NSC.entriesL g.nodes ns).map (fun q => q.2)).dropWhile fn).take 1)))).flatten) ∧
    (∀ (g : Graph) (fn : Edge → Bool),
      g.rangeEdgesVisits fn =
        ((NSC.namespacesL g.edges).map (fun ns =>
          (((NSC.entriesL g.edges ns).map (fun q => q.2)).takeWhile fn ++
           ((((NSC.entriesL g.edges ns).map (fun q => q.2)).dropWhile fn).take 1)))).flatten) ∧
    (∀ (κ : Type) (n : NamespacedSyncMap κ) (fn : κ × κ → Bool),
      n.rangeVisitsNS AnyType fn =
        (n.cacheMap.map (fun p =>
          (p.2.data.takeWhile fn ++ (p.2.data.dropWhile fn).take 1))).flatten) := by
  refine ⟨?_, ?_, ?_⟩
  · intro g fn
    rw [Graph.rangeNodesVisits, foldl_append_acc]
    simp only [visitStop_eq_takeWhile, List.nil_append]
  · intro g fn
    rw [Graph.rangeEdgesVisits, foldl_append_acc]
    simp only [visitStop_eq_takeWhile, List.nil_append]
  · intro κ n fn
    rw [NamespacedSyncMap.rangeVisitsNS, if_pos rfl, foldl_append_acc]
    simp only [visitStop_eq_takeWhile, List.nil_append]

/-- C8: Import replays AddNode for every snapshot node and then AddEdge for
every snapshot edge in order, always returns without error, and discards
individual AddEdge failures: a snapshot whose edge list contains an edge
that fails at its point of replay imports to exactly the same graph as
the snapshot with that edge removed — earlier and later nodes and edges
stay applied, nothing is rolled back. -/
theorem C8_import_discards_errors (g : Graph) (exp : Export) :
    (∃ g2, g.importG exp = Except.ok g2) ∧
    (∀ (es1 : List Edge) (e : Edge) (es2 : List Edge) (err : GraphErr),
      exp.Edges = es1 ++ e :: es2 →
      (es1.foldl (fun acc x =>
          match acc.addEdge x with
          | Except.ok g2 => g2
          | Except.error _ => acc)
        (exp.Nodes.foldl (fun acc n => acc.addNode n) g)).addEdge e =
          Except.error err →
      g.importG exp = g.importG ⟨exp.Nodes, es1 ++ es2⟩) := by
  constructor
  · exact ⟨_, rfl⟩
  · intro es1 e es2 err hsplit herr
    rw [Graph.importG, Graph.importG, hsplit]
    simp only [List.foldl_append, List.foldl_cons]
    rw [herr]

theorem C8_witness :
    (∃ g2, Graph.importG emptyGraph
        ⟨[⟨"u", "a"⟩, ⟨"u", "b"⟩],
         [⟨"t", "x", ⟨"u", "a"⟩, ⟨"u", "b"⟩⟩,
          ⟨"t", "y", ⟨"u", "a"⟩, ⟨"u", "zz"⟩⟩,
          ⟨"t", "z", ⟨"u", "b"⟩, ⟨"u", "a"⟩⟩]⟩ = Except.ok g2) ∧
    Graph.importG emptyGraph
        ⟨[⟨"u", "a"⟩, ⟨"u", "b"⟩],
         [⟨"t", "x", ⟨"u", "a"⟩, ⟨"u", "b"⟩⟩,
          ⟨"t", "y", ⟨"u", "a"⟩, ⟨"u", "zz"⟩⟩,
          ⟨"t", "z", ⟨"u", "b"⟩, ⟨"u", "a"⟩⟩]⟩ =
      Graph.importG emptyGraph
        ⟨[⟨"u", "a"⟩, ⟨"u", "b"⟩],
         [⟨"t", "x", ⟨"u", "a"⟩, ⟨"u", "b"⟩⟩,
          ⟨"t", "z", ⟨"u", "b"⟩, ⟨"u", "a"⟩⟩]⟩ :=
  ⟨(C8_import_discards_errors emptyGraph
      ⟨[⟨"u", "a"⟩, ⟨"u", "b"⟩],
       [⟨"t", "x", ⟨"u", "a"⟩, ⟨"u", "b"⟩⟩,
        ⟨"t", "y", ⟨"u", "a"⟩, ⟨"u", "zz"⟩⟩,
        ⟨"t", "z", ⟨"u", "b"⟩, ⟨"u", "a"⟩⟩]⟩).1,
   (C8_import_discards_errors emptyGraph
      ⟨[⟨"u", "a"⟩, ⟨"u", "b"⟩],
       [⟨"t", "x", ⟨"u", "a"⟩, ⟨"u", "b"⟩⟩,
        ⟨"t", "y", ⟨"u", "a"⟩, ⟨"u", "zz"⟩⟩,
        ⟨"t", "z", ⟨"u", "b"⟩, ⟨"u", "a"⟩⟩]⟩).2
     [⟨"t", "x", ⟨"u", "a"⟩, ⟨"u", "b"⟩⟩]
     ⟨"t", "y", ⟨"u", "a"⟩, ⟨"u", "zz"⟩⟩
     [⟨"t", "z", ⟨"u", "b"⟩, ⟨"u", "a"⟩⟩]
     (GraphErr.notFound ⟨"u", "zz"⟩) rfl rfl⟩

theorem list_map_id_of_eq {α : Type} (l : List α) (f : α → α)
    (h : ∀ x ∈ l, f x = x) : l.map f = l := by
  induction l with
  | nil => rfl
  | cons a as ih =>
      rw [List.map_cons, h a (List.mem_cons_self a as),
        ih (fun x hx => h x (List.mem_cons_of_mem _ hx))]

/-- C9: on a namespace that was never written, Exists and Map dereference
the missing sub-map and crash (modelled as none), while Get, Len, Delete
and Range treat the absent namespace as empty: not-found, 0, no-op and no
visits. -/
theorem C9_exists_map_crash (κ : Type) [DecidableEq κ]
    (n : NamespacedSyncMap κ) (ns : String) (k : κ)
    (h : Table.get n.cacheMap ns = none) (hw : ns ≠ AnyType) :
    n.existsNS ns k = none ∧
    n.mapNS ns = none ∧
    n.getNS ns k = none ∧
    n.lenNS ns = 0 ∧
    n.deleteNS ns k = n ∧
    n.rangeListNS ns = [] := by
  refine ⟨?_, ?_, ?_, ?_, ?_, ?_⟩
  · rw [NamespacedSyncMap.existsNS, h]
  · rw [NamespacedSyncMap.mapNS, h]
  · rw [NamespacedSyncMap.getNS, h]
  · rw [NamespacedSyncMap.lenNS, h]
  · rw [NamespacedSyncMap.deleteNS]
    have hne : ∀ p ∈ n.cacheMap,
        (if p.1 = ns then (p.1, (⟨p.2.data.filter fun q => decide (q.1 ≠ k)⟩ :
          SyncCache κ)) else p) = p := by
      intro p hp
      rw [Table.get_none_iff] at h
      rw [if_neg (h p hp)]
    rw [list_map_id_of_eq _ _ hne]
  · rw [NamespacedSyncMap.rangeListNS, if_neg hw, h]

theorem C9_witness :
    Table.get (NamespacedSyncMap.cacheMap
      (⟨[("n1", ⟨[("a", "b")]⟩)]⟩ : NamespacedSyncMap String)) "n2" = none ∧
    NamespacedSyncMap.existsNS
      (⟨[("n1", ⟨[("a", "b")]⟩)]⟩ : NamespacedSyncMap String) "n2" "a" = none ∧
    NamespacedSyncMap.mapNS
      (⟨[("n1", ⟨[("a", "b")]⟩)]⟩ : NamespacedSyncMap String) "n2" = none ∧
    NamespacedSyncMap.lenNS
      (⟨[("n1", ⟨[("a", "b")]⟩)]⟩ : NamespacedSyncMap String) "n2" = 0 :=
  have hmain := C9_exists_map_crash String
    (⟨[("n1", ⟨[("a", "b")]⟩)]⟩ : NamespacedSyncMap String) "n2" "a"
    (by decide) (by decide)
  ⟨by decide, hmain.1, hmain.2.1, hmain.2.2.2.1⟩

theorem SyncCache.existsKey_iff {κ : Type} [DecidableEq κ]
    (c : SyncCache κ) (v : κ) :
    c.existsKey v = true ↔ ∃ w, (v, w) ∈ c.data := by
  rw [SyncCache.existsKey, SyncCache.get]
  rcases hf : List.find? (fun p => decide (p.1 = v)) c.data with _ | x
  · constructor
    · intro h
      simp [hf] at h
    · rintro ⟨w, hw⟩
      have hs : (List.find? (fun p => decide (p.1 = v)) c.data).isSome :=
        List.find?_isSome.mpr ⟨(v, w), hw, by simp⟩
      rw [hf] at hs
      simp at hs
  · constructor
    · intro _
      have hx := List.find?_some hf
      have hxm := List.mem_of_find?_eq_some hf
      have hxv : x.1 = v := by simpa using hx
      exact ⟨x.2, by rw [← hxv]; exact hxm⟩
    · intro _
      simp [hf]

/-- C10: Intersection of two existing namespaces returns exactly the
entries (k, v) of the first namespace whose VALUE v occurs as a KEY of
the second namespace; on a concrete instance this differs from the
key-wise set intersection of the two namespaces. -/
theorem C10_intersection_matches_values_to_keys (κ : Type) [DecidableEq κ]
    (n : NamespacedSyncMap κ) (ns1 ns2 : String) (c1 c2 : SyncCache κ)
    (h1 : Table.get n.cacheMap ns1 = some c1)
    (h2 : Table.get n.cacheMap ns2 = some c2) :
    (∀ kk vv : κ, (kk, vv) ∈ n.intersectionNS ns1 ns2 ↔
      ((kk, vv) ∈ c1.data ∧ ∃ w, (vv, w) ∈ c2.data)) ∧
    ¬ (NamespacedSyncMap.intersectionNS
        (⟨[("n1", ⟨[("k1", "v1"), ("k2", "k1")]⟩),
           ("n2", ⟨[("k1", "w")]⟩)]⟩ : NamespacedSyncMap String) "n1" "n2" =
       keywiseIntersection ⟨[("k1", "v1"), ("k2", "k1")]⟩ ⟨[("k1", "w")]⟩) := by
  constructor
  · intro kk vv
    rw [NamespacedSyncMap.intersectionNS, h1, h2]
    show (kk, vv) ∈ c1.data.filter (fun p => c2.existsKey p.2) ↔ _
    rw [List.mem_filter]
    constructor
    · rintro ⟨hm, hex⟩
      exact ⟨hm, (SyncCache.existsKey_iff c2 vv).mp hex⟩
    · rintro ⟨hm, hex⟩
      exact ⟨hm, (SyncCache.existsKey_iff c2 vv).mpr hex⟩
  · decide

theorem C10_witness :
    (("k2", "k1") ∈ NamespacedSyncMap.intersectionNS
      (⟨[("n1", ⟨[("k1", "v1"), ("k2", "k1")]⟩),
         ("n2", ⟨[("k1", "w")]⟩)]⟩ : NamespacedSyncMap String) "n1" "n2" ↔
      (("k2", "k1") ∈ [("k1", "v1"), ("k2", "k1")] ∧
        ∃ w, ("k1", w) ∈ [("k1", "w")])) :=
  (C10_intersection_matches_values_to_keys String
    (⟨[("n1", ⟨[("k1", "v1"), ("k2", "k1")]⟩),
       ("n2", ⟨[("k1", "w")]⟩)]⟩ : NamespacedSyncMap String) "n1" "n2"
    ⟨[("k1", "v1"), ("k2", "k1")]⟩ ⟨[("k1", "w")]⟩
    (by decide) (by decide)).1 "k2" "k1"

theorem Table.mem_set_sub {V : Type} (t : Table V) (k : String) (v : V)
    (q : String × V) (h : q ∈ Table.set t k v) : q ∈ t ∨ q = (k, v) := by
  induction t with
  | nil =>
      rw [Table.set] at h
      simp only [List.mem_singleton] at h
      exact Or.inr h
  | cons p rest ih =>
      by_cases hp : p.1 = k
      · rw [Table.set, if_pos hp] at h
        rcases List.mem_cons.mp h with h1 | h1
        · exact Or.inr h1
        · exact Or.inl (List.mem_cons_of_mem _ h1)
      · rw [Table.set, if_neg hp] at h
        rcases List.mem_cons.mp h with h1 | h1
        · exact Or.inl (h1 ▸ List.mem_cons_self _ _)
        · rcases ih h1 with h2 | h2
          · exact Or.inl (List.mem_cons_of_mem _ h2)
          · exact Or.inr h2

theorem NSC.mem_lookups_set_sub {V : Type} (c : NSC V) (ns k : String) (v : V)
    (tr : String × String × V) (h : tr ∈ NSC.lookups (NSC.set c ns k v)) :
    tr ∈ NSC.lookups c ∨ tr = (ns, k, v) := by
  induction c with
  | nil =>
      rw [NSC.set, NSC.lookups] at h
      simp only [List.flatMap_cons, List.flatMap_nil, List.append_nil,
        List.mem_map] at h
      rcases h with ⟨q, hq, hqe⟩
      rcases Table.mem_set_sub [] k v q hq with h1 | h1
      · simp at h1
      · subst h1
        exact Or.inr hqe.symm
  | cons p rest ih =>
      by_cases hp : p.1 = ns
      · rw [NSC.set, if_pos hp] at h
        rw [NSC.lookups, List.flatMap_cons, List.mem_append] at h
        rcases h with h1 | h1
        · simp only [List.mem_map] at h1
          rcases h1 with ⟨q, hq, hqe⟩
          rcases Table.mem_set_sub p.2 k v q hq with h2 | h2
          · left
            rw [NSC.lookups, List.flatMap_cons, List.mem_append]
            exact Or.inl (List.mem_map.mpr ⟨q, h2, hqe⟩)
          · subst h2
            rw [← hqe, hp]
            exact Or.inr rfl
        · left
          rw [NSC.lookups, List.flatMap_cons, List.mem_append]
          exact Or.inr h1
      · rw [NSC.set, if_neg hp] at h
        rw [NSC.lookups, List.flatMap_cons, List.mem_append] at h
        rcases h with h1 | h1
        · left
          rw [NSC.lookups, List.flatMap_cons, List.mem_append]
          exact Or.inl h1
        · rcases ih h1 with h2 | h2
          · left
            rw [NSC.lookups, List.flatMap_cons, List.mem_append]
            exact Or.inr h2
          · exact Or.inr h2

theorem NSC.values_key_iff_get {V : Type} (c : NSC V) (tf idf : V → String)
    (hwf : NSC.WellFormed c)
    (hwkv : ∀ tr ∈ NSC.lookups c, tf tr.2.2 = tr.1 ∧ idf tr.2.2 = tr.2.1)
    (t i : String) :
    (∃ v ∈ NSC.values c, tf v = t ∧ idf v = i) ↔
      (NSC.get c t i).isSome = true := by
  constructor
  · rintro ⟨v, hv, hvt, hvi⟩
    rcases (NSC.mem_values_iff c v).mp hv with ⟨ns, k, hmem⟩
    obtain ⟨e1, e2⟩ := hwkv (ns, k, v) hmem
    simp only at e1 e2
    have hns : ns = t := by rw [← e1, hvt]
    have hk : k = i := by rw [← e2, hvi]
    subst hns
    subst hk
    rw [NSC.mem_lookups_get c ns k v hwf hmem]
    rfl
  · intro h
    rcases hg : NSC.get c t i with _ | v
    · rw [hg] at h
      simp at h
    · have hmem := NSC.get_mem_lookups c t i v hg
      obtain ⟨e1, e2⟩ := hwkv (t, i, v) hmem
      exact ⟨v, (NSC.mem_values_iff c v).mpr ⟨t, i, hmem⟩, e1, e2⟩

theorem Graph.assignEdgeId_of_ne (g : Graph) (e : Edge) (h : e.id ≠ "") :
    g.assignEdgeId e = e := by
  rw [Graph.assignEdgeId, if_neg h]

theorem Graph.addNode_get_ne_empty (g : Graph) (n : Node) (hne : n.id ≠ "")
    (t i : String) :
    (NSC.get (g.addNode n).nodes t i).isSome = true ↔
      (NSC.get g.nodes t i).isSome = true ∨ (n.typ = t ∧ n.id = i) := by
  rw [Graph.addNode, if_neg hne]
  show (NSC.get (NSC.set g.nodes n.typ n.id n) t i).isSome = true ↔ _
  by_cases hp : t = n.typ ∧ i = n.id
  · rw [hp.1, hp.2, NSC.get_set_selfNS]
    simp
  · rw [NSC.get_set_neNS _ _ _ _ _ _ hp]
    constructor
    · exact Or.inl
    · rintro (h | ⟨h1, h2⟩)
      · exact h
      · exact absurd ⟨h1.symm, h2.symm⟩ hp

theorem Graph.addNode_nodes_wk (g : Graph) (n : Node) (hne : n.id ≠ "")
    (hwkv : ∀ tr ∈ NSC.lookups g.nodes,
      tr.2.2.typ = tr.1 ∧ tr.2.2.id = tr.2.1) :
    ∀ tr ∈ NSC.lookups (g.addNode n).nodes,
      tr.2.2.typ = tr.1 ∧ tr.2.2.id = tr.2.1 := by
  intro tr htr
  rw [Graph.addNode, if_neg hne] at htr
  rcases NSC.mem_lookups_set_sub g.nodes n.typ n.id n tr htr with h1 | h1
  · exact hwkv tr h1
  · subst h1
    exact ⟨rfl, rfl⟩

theorem foldAddNode_main (l : List Node) (g : Graph)
    (hne : ∀ n ∈ l, n.id ≠ "")
    (hwf : NSC.WellFormed g.nodes)
    (hwkv : ∀ tr ∈ NSC.lookups g.nodes,
      tr.2.2.typ = tr.1 ∧ tr.2.2.id = tr.2.1) :
    ((l.foldl (fun acc n => acc.addNode n) g).edges = g.edges ∧
     (l.foldl (fun acc n => acc.addNode n) g).edgesFrom = g.edgesFrom ∧
     (l.foldl (fun acc n => acc.addNode n) g).edgesTo = g.edgesTo) ∧
    NSC.WellFormed (l.foldl (fun acc n => acc.addNode n) g).nodes ∧
    (∀ tr ∈ NSC.lookups (l.foldl (fun acc n => acc.addNode n) g).nodes,
      tr.2.2.typ = tr.1 ∧ tr.2.2.id = tr.2.1) ∧
    (∀ t i : String,
      (NSC.get (l.foldl (fun acc n => acc.addNode n) g).nodes t i).isSome = true ↔
        (NSC.get g.nodes t i).isSome = true ∨ ∃ n ∈ l, n.typ = t ∧ n.id = i) := by
  induction l generalizing g with
  | nil =>
      refine ⟨⟨rfl, rfl, rfl⟩, hwf, hwkv, ?_⟩
      intro t i
      simp
  | cons n rest ih =>
      have hn : n.id ≠ "" := hne n (List.mem_cons_self _ _)
      have hrest : ∀ m ∈ rest, m.id ≠ "" :=
        fun m hm => hne m (List.mem_cons_of_mem _ hm)
      have hwf2 : NSC.WellFormed (g.addNode n).nodes := by
        obtain ⟨ns, k, v, hset⟩ := Graph.addNode_nodes_set g n
        rw [hset]
        exact NSC.wf_set _ _ _ _ hwf
      have hwkv2 := Graph.addNode_nodes_wk g n hn hwkv
      obtain ⟨⟨hE, hF, hT⟩, hwf3, hwkv3, hiff⟩ := ih (g.addNode n) hrest hwf2 hwkv2
      obtain ⟨hE0, hF0, hT0⟩ := Graph.addNode_untouched g n
      simp only [List.foldl_cons]
      refine ⟨⟨hE.trans hE0, hF.trans hF0, hT.trans hT0⟩, hwf3, hwkv3, ?_⟩
      intro t i
      rw [hiff t i, Graph.addNode_get_ne_empty g n hn t i]
      simp only [List.mem_cons]
      constructor
      · rintro ((h | h) | ⟨m, hm, hmt, hmi⟩)
        · exact Or.inl h
        · exact Or.inr ⟨n, Or.inl rfl, h.1, h.2⟩
        · exact Or.inr ⟨m, Or.inr hm, hmt, hmi⟩
      · rintro (h | ⟨m, hm | hm, hmt, hmi⟩)
        · exact Or.inl (Or.inl h)
        · exact Or.inl (Or.inr ⟨hm ▸ hmt, hm ▸ hmi⟩)
        · exact Or.inr ⟨m, hm, hmt, hmi⟩

theorem Graph.addEdge_get_step (g : Graph) (e : Edge) (g2 : Graph)
    (h : g.addEdge e = Except.ok g2) (hne : e.id ≠ "") (t i : String) :
    (NSC.get g2.edges t i).isSome = true ↔
      (NSC.get g.edges t i).isSome = true ∨ (e.typ = t ∧ e.id = i) := by
  obtain ⟨_, hE, _, _⟩ := Graph.addEdge_components g e g2 h
  rw [Graph.assignEdgeId_of_ne g e hne] at hE
  rw [hE]
  by_cases hp : t = e.typ ∧ i = e.id
  · rw [hp.1, hp.2, NSC.get_set_selfNS]
    simp
  · rw [NSC.get_set_neNS _ _ _ _ _ _ hp]
    constructor
    · exact Or.inl
    · rintro (h1 | ⟨h1, h2⟩)
      · exact h1
      · exact absurd ⟨h1.symm, h2.symm⟩ hp

theorem foldAddEdge_main (es : List Edge) (g : Graph)
    (hok : ∀ e ∈ es, e.Validate = true ∧ e.id ≠ "" ∧
      g.hasNode e.From = true ∧ g.hasNode e.To = true)
    (hwf : NSC.WellFormed g.edges)
    (hwkv : WellKeyedEdges g) :
    ((es.foldl (fun acc x =>
        match acc.addEdge x with
        | Except.ok g2 => g2
        | Except.error _ => acc) g).nodes = g.nodes) ∧
    NSC.WellFormed (es.foldl (fun acc x =>
        match acc.addEdge x with
        | Except.ok g2 => g2
        | Except.error _ => acc) g).edges ∧
    WellKeyedEdges (es.foldl (fun acc x =>
        match acc.addEdge x with
        | Except.ok g2 => g2
        | Except.error _ => acc) g) ∧
    (∀ t i : String,
      (NSC.get (es.foldl (fun acc x =>
          match acc.addEdge x with
          | Except.ok g2 => g2
          | Except.error _ => acc) g).edges t i).isSome = true ↔
        (NSC.get g.edges t i).isSome = true ∨ ∃ e ∈ es, e.typ = t ∧ e.id = i) := by
  induction es generalizing g with
  | nil =>
      refine ⟨rfl, hwf, hwkv, ?_⟩
      intro t i
      simp
  | cons e rest ih =>
      obtain ⟨hV, hne, hF, hT⟩ := hok e (List.mem_cons_self _ _)
      have hrest0 : ∀ x ∈ rest, x.Validate = true ∧ x.id ≠ "" ∧
          g.hasNode x.From = true ∧ g.hasNode x.To = true :=
        fun x hx => hok x (List.mem_cons_of_mem _ hx)
      have hassign := Graph.assignEdgeId_of_ne g e hne
      have hokE : ∃ g2, g.addEdge e = Except.ok g2 := by
        rw [Graph.addEdge_ok_iff, hassign]
        exact ⟨hV, hF, hT⟩
      obtain ⟨g2, hg2⟩ := hokE
      obtain ⟨hN2, hE2, _, _⟩ := Graph.addEdge_components g e g2 hg2
      rw [hassign] at hE2
      have hwf2 : NSC.WellFormed g2.edges := by
        rw [hE2]
        exact NSC.wf_set _ _ _ _ hwf
      have hwkv2 : WellKeyedEdges g2 := by
        intro tr htr
        rw [hE2] at htr
        rcases NSC.mem_lookups_set_sub g.edges e.typ e.id e tr htr with h1 | h1
        · exact hwkv tr h1
        · subst h1
          exact ⟨rfl, rfl⟩
      have hrest2 : ∀ x ∈ rest, x.Validate = true ∧ x.id ≠ "" ∧
          g2.hasNode x.From = true ∧ g2.hasNode x.To = true := by
        intro x hx
        obtain ⟨a, b, c, d⟩ := hrest0 x hx
        simp only [Graph.hasNode, Graph.getNode] at c d ⊢
        rw [hN2]
        exact ⟨a, b, c, d⟩
      obtain ⟨hNr, hwfr, hwkr, hiffr⟩ := ih g2 hrest2 hwf2 hwkv2
      simp only [List.foldl_cons]
      rw [hg2]
      refine ⟨hNr.trans hN2, hwfr, hwkr, ?_⟩
      intro t i
      rw [hiffr t i, Graph.addEdge_get_step g e g2 hg2 hne t i]
      simp only [List.mem_cons]
      constructor
      · rintro ((h | h) | ⟨m, hm, hmt, hmi⟩)
        · exact Or.inl h
        · exact Or.inr ⟨e, Or.inl rfl, h.1, h.2⟩
        · exact Or.inr ⟨m, Or.inr hm, hmt, hmi⟩
      · rintro (h | ⟨m, hm | hm, hmt, hmi⟩)
        · exact Or.inl (Or.inl h)
        · exact Or.inl (Or.inr ⟨hm ▸ hmt, hm ▸ hmi⟩)
        · exact Or.inr ⟨m, hm, hmt, hmi⟩

/-- C4: for every API-shaped graph G (nodes and edges stored under their
own nonempty (type, id), stored edges valid with both endpoints present),
importing any reordering of Export(G) into a fresh empty graph yields a
graph with exactly the same set of node (type, id) pairs and exactly the
same set of edge (type, id) pairs as G. -/
theorem C4_export_import_roundtrip (G : Graph) (hWF : WFGraph G)
    (nsl : List Node) (esl : List Edge)
    (hp1 : List.Perm nsl (G.exportG).Nodes)
    (hp2 : List.Perm esl (G.exportG).Edges)
    (R : Graph) (hR : emptyGraph.importG ⟨nsl, esl⟩ = Except.ok R) :
    (∀ t i : String, hasNodeKey G.nodesList t i ↔ hasNodeKey R.nodesList t i) ∧
    (∀ t i : String, hasEdgeKey G.edgesList t i ↔ hasEdgeKey R.edgesList t i) := by
  obtain ⟨⟨wfN, wfE, _, _⟩, hWN, hWE⟩ := hWF
  have hexpN : (G.exportG).Nodes = G.nodesList := rfl
  have hexpE : (G.exportG).Edges = G.edgesList := rfl
  rw [hexpN] at hp1
  rw [hexpE] at hp2
  -- facts about the members of the permuted lists
  have hWNv : ∀ n ∈ G.nodesList, n.id ≠ "" := by
    intro n hn
    rcases (NSC.mem_values_iff G.nodes n).mp hn with ⟨ns, k, hmem⟩
    exact (hWN (ns, k, n) hmem).2.2
  have hnsl : ∀ n ∈ nsl, n.id ≠ "" :=
    fun n hn => hWNv n (hp1.mem_iff.mp hn)
  have hGnodeKey : ∀ (tt : TypedID), G.hasNode tt = true →
      ∃ n ∈ nsl, n.typ = tt.typ ∧ n.id = tt.id := by
    intro tt htt
    rw [Graph.hasNode, Graph.getNode] at htt
    rcases hg : NSC.get G.nodes tt.typ tt.id with _ | nd
    · rw [hg] at htt
      simp at htt
    · have hmem := NSC.get_mem_lookups G.nodes tt.typ tt.id nd hg
      obtain ⟨e1, e2, _⟩ := hWN (tt.typ, tt.id, nd) hmem
      refine ⟨nd, hp1.mem_iff.mpr ?_, e1, e2⟩
      exact (NSC.mem_values_iff G.nodes nd).mpr ⟨tt.typ, tt.id, hmem⟩
  -- unpack the imported graph
  rw [Graph.importG] at hR
  injection hR with hR2
  -- the node-import stage
  have hwfE0 : NSC.WellFormed (emptyGraph.nodes) :=
    ⟨List.nodup_nil, by intro p hp; simp [emptyGraph] at hp⟩
  obtain ⟨⟨hgE, _, _⟩, hwfN1, hwkvN1, hiffN⟩ :=
    foldAddNode_main nsl emptyGraph hnsl hwfE0
      (by intro tr htr; simp [NSC.lookups, emptyGraph] at htr)
  set gN : Graph := nsl.foldl (fun acc n => acc.addNode n) emptyGraph with hgN
  -- the edge-import stage
  have hesl : ∀ e ∈ esl, e.Validate = true ∧ e.id ≠ "" ∧
      gN.hasNode e.From = true ∧ gN.hasNode e.To = true := by
    intro e he
    have heG : e ∈ G.edgesList := hp2.mem_iff.mp he
    rcases (NSC.mem_values_iff G.edges e).mp heG with ⟨ns, k, hmem⟩
    obtain ⟨_, _, hne, hV, hhF, hhT⟩ := hWE (ns, k, e) hmem
    have hgF : gN.hasNode e.From = true := by
      rw [Graph.hasNode, Graph.getNode, hiffN]
      rcases hGnodeKey e.From hhF with ⟨n, hn, h1, h2⟩
      exact Or.inr ⟨n, hn, h1, h2⟩
    have hgT : gN.hasNode e.To = true := by
      rw [Graph.hasNode, Graph.getNode, hiffN]
      rcases hGnodeKey e.To hhT with ⟨n, hn, h1, h2⟩
      exact Or.inr ⟨n, hn, h1, h2⟩
    exact ⟨hV, hne, hgF, hgT⟩
  have hwfEgN : NSC.WellFormed gN.edges := by
    rw [hgE]
    exact ⟨List.nodup_nil, by intro p hp; simp [emptyGraph] at hp⟩
  have hwkEgN : WellKeyedEdges gN := by
    intro tr htr
    rw [hgE] at htr
    simp [NSC.lookups, emptyGraph] at htr
  obtain ⟨hNr, hwfr, hwkr, hiffE⟩ := foldAddEdge_main esl gN hesl hwfEgN hwkEgN
  rw [← hR2]
  constructor
  · intro t i
    have hGside : hasNodeKey G.nodesList t i ↔
        ∃ n ∈ nsl, n.typ = t ∧ n.id = i := by
      rw [hasNodeKey]
      constructor
      · rintro ⟨n, hn, h1, h2⟩
        exact ⟨n, hp1.mem_iff.mpr hn, h1, h2⟩
      · rintro ⟨n, hn, h1, h2⟩
        exact ⟨n, hp1.mem_iff.mp hn, h1, h2⟩
    have hRside : hasNodeKey (esl.foldl (fun acc x =>
        match acc.addEdge x with
        | Except.ok g2 => g2
        | Except.error _ => acc) gN).nodesList t i ↔
        (NSC.get gN.nodes t i).isSome = true := by
      rw [hasNodeKey, Graph.nodesList, hNr]
      exact NSC.values_key_iff_get gN.nodes Node.typ Node.id hwfN1 hwkvN1 t i
    have hempty : (NSC.get emptyGraph.nodes t i).isSome = false := rfl
    rw [hGside, hRside, hiffN t i, hempty]
    simp
  · intro t i
    have hGside : hasEdgeKey G.edgesList t i ↔
        ∃ e ∈ esl, e.typ = t ∧ e.id = i := by
      rw [hasEdgeKey]
      constructor
      · rintro ⟨e, he, h1, h2⟩
        exact ⟨e, hp2.mem_iff.mpr he, h1, h2⟩
      · rintro ⟨e, he, h1, h2⟩
        exact ⟨e, hp2.mem_iff.mp he, h1, h2⟩
    have hRside : hasEdgeKey (esl.foldl (fun acc x =>
        match acc.addEdge x with
        | Except.ok g2 => g2
        | Except.error _ => acc) gN).edgesList t i ↔
        (NSC.get (esl.foldl (fun acc x =>
          match acc.addEdge x with
          | Except.ok g2 => g2
          | Except.error _ => acc) gN).edges t i).isSome = true := by
      rw [hasEdgeKey, Graph.edgesList]
      exact NSC.values_key_iff_get _ Edge.typ Edge.id hwfr hwkr t i
    have hemptyE : (NSC.get gN.edges t i).isSome = false := by
      rw [hgE]
      rfl
    rw [hGside, hRside, hiffE t i, hemptyE]
    simp

theorem C4_witness :
    WFGraph (Graph.run emptyGraph [Op.addN ⟨"u", "a"⟩, Op.addN ⟨"u", "b"⟩,
      Op.addE ⟨"t", "x", ⟨"u", "a"⟩, ⟨"u", "b"⟩⟩]) ∧
    List.Perm [(⟨"u", "b"⟩ : Node), ⟨"u", "a"⟩]
      ((Graph.run emptyGraph [Op.addN ⟨"u", "a"⟩, Op.addN ⟨"u", "b"⟩,
        Op.addE ⟨"t", "x", ⟨"u", "a"⟩, ⟨"u", "b"⟩⟩]).exportG).Nodes ∧
    (∀ t i : String,
      hasNodeKey (Graph.run emptyGraph [Op.addN ⟨"u", "a"⟩, Op.addN ⟨"u", "b"⟩,
        Op.addE ⟨"t", "x", ⟨"u", "a"⟩, ⟨"u", "b"⟩⟩]).nodesList t i ↔
      hasNodeKey (Graph.mk
        [("u", [("b", ⟨"u", "b"⟩), ("a", ⟨"u", "a"⟩)])]
        [("t", [("x", ⟨"t", "x", ⟨"u", "a"⟩, ⟨"u", "b"⟩⟩)])]
        [("u", [("a", [⟨"t", "x", ⟨"u", "a"⟩, ⟨"u", "b"⟩⟩])])]
        [("u", [("b", [⟨"t", "x", ⟨"u", "a"⟩, ⟨"u", "b"⟩⟩])])]
        0).nodesList t i) ∧
    (∀ t i : String,
      hasEdgeKey (Graph.run emptyGraph [Op.addN ⟨"u", "a"⟩, Op.addN ⟨"u", "b"⟩,
        Op.addE ⟨"t", "x", ⟨"u", "a"⟩, ⟨"u", "b"⟩⟩]).edgesList t i ↔
      hasEdgeKey (Graph.mk
        [("u", [("b", ⟨"u", "b"⟩), ("a", ⟨"u", "a"⟩)])]
        [("t", [("x", ⟨"t", "x", ⟨"u", "a"⟩, ⟨"u", "b"⟩⟩)])]
        [("u", [("a", [⟨"t", "x", ⟨"u", "a"⟩, ⟨"u", "b"⟩⟩])])]
        [("u", [("b", [⟨"t", "x", ⟨"u", "a"⟩, ⟨"u", "b"⟩⟩])])]
        0).edgesList t i) :=
  ⟨by decide, by decide,
   (C4_export_import_roundtrip
     (Graph.run emptyGraph [Op.addN ⟨"u", "a"⟩, Op.addN ⟨"u", "b"⟩,
       Op.addE ⟨"t", "x", ⟨"u", "a"⟩, ⟨"u", "b"⟩⟩]) (by decide)
     [⟨"u", "b"⟩, ⟨"u", "a"⟩] [⟨"t", "x", ⟨"u", "a"⟩, ⟨"u", "b"⟩⟩]
     (by decide) (by decide)
     (Graph.mk
        [("u", [("b", ⟨"u", "b"⟩), ("a", ⟨"u", "a"⟩)])]
        [("t", [("x", ⟨"t", "x", ⟨"u", "a"⟩, ⟨"u", "b"⟩⟩)])]
        [("u", [("a", [⟨"t", "x", ⟨"u", "a"⟩, ⟨"u", "b"⟩⟩])])]
        [("u", [("b", [⟨"t", "x", ⟨"u", "a"⟩, ⟨"u", "b"⟩⟩])])]
        0) rfl).1,
   (C4_export_import_roundtrip
     (Graph.run emptyGraph [Op.addN ⟨"u", "a"⟩, Op.addN ⟨"u", "b"⟩,
       Op.addE ⟨"t", "x", ⟨"u", "a"⟩, ⟨"u", "b"⟩⟩]) (by decide)
     [⟨"u", "b"⟩, ⟨"u", "a"⟩] [⟨"t", "x", ⟨"u", "a"⟩, ⟨"u", "b"⟩⟩]
     (by decide) (by decide)
     (Graph.mk
        [("u", [("b", ⟨"u", "b"⟩), ("a", ⟨"u", "a"⟩)])]
        [("t", [("x", ⟨"t", "x", ⟨"u", "a"⟩, ⟨"u", "b"⟩⟩)])]
        [("u", [("a", [⟨"t", "x", ⟨"u", "a"⟩, ⟨"u", "b"⟩⟩])])]
        [("u", [("b", [⟨"t", "x", ⟨"u", "a"⟩, ⟨"u", "b"⟩⟩])])]
        0) rfl).2⟩

end Dagger
